import Mathlib

/-!
# Shallow embedding of the TRIEST streaming triangle-counting core

This file embeds the three components of the homework-3 streaming core:

* `ReservoirSampling` (ReservoirSampling.py): fixed-capacity reservoir with
  stream counter `t`.  The two random draws of `add_item`
  (`random.random()` and `random.randint(0, M-1)`) are made explicit inputs:
  a rational `q` standing for the value drawn by `random.random()` (a valid
  draw satisfies `0 ≤ q < 1`) and a natural `i` whose residue `i % M` stands
  for the value drawn by `random.randint(0, M-1)`.
* `TriestBase` (TriestBase.py): the exact-correction estimator.
* `TriestImpr` (TriestImpr.py): the weighted, never-decrementing estimator.
  Python's true division raises `ZeroDivisionError` when the denominator
  `M*(M-1)` is zero, so the weight computation and `process_edge` return an
  `Option`, `none` being the raised error.

A Python `set` of vertices is embedded as a duplicate-free `List Vertex`
(`add` inserts only when absent, `discard` erases); iteration over the set
is iteration over that list — all per-element updates performed by the code
commute, so the unspecified Python iteration order is immaterial.  The
`defaultdict(set)` adjacency (with explicit `del` of emptied keys) is
embedded as `Adj := ℕ → Option (List ℕ)`: `none` is an absent key.
Python numbers are embedded exactly: int counters as `ℤ`, float counters
and true-division results as `ℚ`.
-/

/-- Vertex identifiers (Python uses hashable ids; the drivers use ints). -/
abbrev Vertex := ℕ

/-- An edge as it appears in the stream: an ordered pair `(u, v)`. -/
abbrev Edge := Vertex × Vertex

/-- Python `set.add`: insert unless already present. -/
def setAdd (l : List Vertex) (x : Vertex) : List Vertex :=
  if x ∈ l then l else x :: l

/-- Python `set.discard`: remove if present (on duplicate-free lists,
`List.erase` is exactly this). -/
def setDiscard (l : List Vertex) (x : Vertex) : List Vertex :=
  l.erase x

/-- Python `set.intersection`. -/
def setInter (l r : List Vertex) : List Vertex :=
  l.filter (fun x => x ∈ r)

/-- The adjacency dictionary: a key either is absent (`none`) or holds a
set of neighbours, mirroring Python's `defaultdict(set)` plus the explicit
`del` statements. -/
def Adj : Type := Vertex → Option (List Vertex)

/-- The empty dictionary (fresh `defaultdict(set)`). -/
def Adj.empty : Adj := fun _ => none

/-- Reading `adj[k]` as a set value: an absent key reads as the empty set
(defaultdict semantics). -/
def adjGet (adj : Adj) (k : Vertex) : List Vertex :=
  (adj k).getD []

/-- Writing `adj[k] = s` (key `k` becomes present with value `s`). -/
def adjSet (adj : Adj) (k : Vertex) (s : List Vertex) : Adj :=
  fun x => if x = k then some s else adj x

/-- `del adj[k]`: the key becomes absent. -/
def adjDel (adj : Adj) (k : Vertex) : Adj :=
  fun x => if x = k then none else adj x

/-- `self.adj[k].discard(x)`: the defaultdict read materialises the key,
then `x` is removed from its set. -/
def adjDiscard (adj : Adj) (k x : Vertex) : Adj :=
  adjSet adj k (setDiscard (adjGet adj k) x)

/-- `if not self.adj[k]: del self.adj[k]` — the read materialises the key;
it is deleted again when its set is empty. -/
def adjDelIfEmpty (adj : Adj) (k : Vertex) : Adj :=
  if adjGet adj k = [] then adjDel adj k else adjSet adj k (adjGet adj k)

/-- `self.adj[k].add(x)`. -/
def adjInsert (adj : Adj) (k x : Vertex) : Adj :=
  adjSet adj k (setAdd (adjGet adj k) x)

/-- The eviction block shared verbatim by both estimators:
`adj[ru].discard(rv); adj[rv].discard(ru);`
`if not adj[ru]: del adj[ru];  if not adj[rv]: del adj[rv]`. -/
def removeAdj (adj : Adj) (ru rv : Vertex) : Adj :=
  adjDelIfEmpty (adjDelIfEmpty (adjDiscard (adjDiscard adj ru rv) rv ru) ru) rv

/-- The admission block shared verbatim by both estimators:
`adj[u].add(v); adj[v].add(u)`. -/
def addAdj (adj : Adj) (u v : Vertex) : Adj :=
  adjInsert (adjInsert adj u v) v u

/-- `ReservoirSampling.__init__` state: capacity `M`, the sample list, and
the number `t` of items seen.  No validation is performed on `M`. -/
structure ReservoirSampling where
  M : ℕ
  sample : List Edge
  t : ℕ

/-- `ReservoirSampling(memory_size)`. -/
def ReservoirSampling.init (memory_size : ℕ) : ReservoirSampling :=
  { M := memory_size, sample := [], t := 0 }

/-- `ReservoirSampling.add_item`.  `q` is the value drawn by
`random.random()`, `i % M` the value drawn by `random.randint(0, M-1)`.
Returns the new state together with `(added, removed_item)`.
The Python guard `random.random() < self.M / self.t` compares the draw
with the exact rational `M / t`, written `Rat.divInt M t`; the lemma
`add_item_guard_eq_div` below shows this is the division `(M : ℚ) / t`. -/
def ReservoirSampling.add_item (r : ReservoirSampling) (item : Edge)
    (q : ℚ) (i : ℕ) : ReservoirSampling × Bool × Option Edge :=
  let t := r.t + 1
  if r.sample.length < r.M then
    ({ r with sample := r.sample ++ [item], t := t }, true, none)
  else if q < Rat.divInt (r.M : ℤ) (t : ℤ) then
    let idx := i % r.M
    let removed_item := r.sample.getD idx (0, 0)
    ({ r with sample := r.sample.set idx item, t := t }, true, some removed_item)
  else
    ({ r with t := t }, false, none)

/-- `get_common_neighbors`: `adj[u] & adj[v]` when both keys are present
(`u in self.adj and v in self.adj`), else the empty set. -/
def get_common_neighbors (adj : Adj) (u v : Vertex) : List Vertex :=
  match adj u, adj v with
  | some su, some sv => setInter su sv
  | some _, none => []
  | none, some _ => []
  | none, none => []

/-- One iteration of the counter-update loop, shared by
`TriestBase.update_counters` (with `d = change ∈ {1, -1}` over `ℤ`) and the
inline loop of `TriestImpr.process_edge` (with `d = eta` over `ℚ`):
`global += d; local[u] += d; local[v] += d; local[c] += d`. -/
def counterStep {A : Type} [Add A] (d : A) (u v : Vertex)
    (st : A × (Vertex → A)) (c : Vertex) : A × (Vertex → A) :=
  let g := st.1 + d
  let l1 := Function.update st.2 u (st.2 u + d)
  let l2 := Function.update l1 v (l1 v + d)
  let l3 := Function.update l2 c (l2 c + d)
  (g, l3)

/-- `TriestBase.__init__` state. -/
structure TriestBase where
  M : ℕ
  reservoir : ReservoirSampling
  adj : Adj
  global_triangles : ℤ
  local_triangles : Vertex → ℤ

/-- `TriestBase(M)`: no validation of `M`. -/
def TriestBase.init (M : ℕ) : TriestBase :=
  { M := M, reservoir := ReservoirSampling.init M, adj := Adj.empty,
    global_triangles := 0, local_triangles := fun _ => 0 }

/-- `TriestBase.update_counters(u, v, is_addition)`: for every common
neighbor `c`, add `change = ±1` to the global counter and to the local
counters of `u`, `v` and `c`. -/
def TriestBase.update_counters (s : TriestBase) (u v : Vertex)
    (is_addition : Bool) : TriestBase :=
  let change : ℤ := if is_addition then 1 else -1
  let common := get_common_neighbors s.adj u v
  let res := common.foldl (counterStep change u v)
    (s.global_triangles, s.local_triangles)
  { s with global_triangles := res.1, local_triangles := res.2 }

/-- `TriestBase.process_edge(u, v)`: feed `(u, v)` to the reservoir; on
eviction decrement counters (with the evicted edge still in the adjacency)
then remove it from the adjacency; on admission increment counters (before
the new edge's adjacency entries are added) then add it. -/
def TriestBase.process_edge (s : TriestBase) (u v : Vertex)
    (q : ℚ) (i : ℕ) : TriestBase :=
  let res := s.reservoir.add_item (u, v) q i
  let s1 : TriestBase := { s with reservoir := res.1 }
  let s2 : TriestBase :=
    match res.2.2 with
    | some e =>
        let s' := s1.update_counters e.1 e.2 false
        { s' with adj := removeAdj s'.adj e.1 e.2 }
    | none => s1
  if res.2.1 then
    let s3 := s2.update_counters u v true
    { s3 with adj := addAdj s3.adj u v }
  else s2

/-- `TriestBase.get_estimation()`: the global counter while `t ≤ M`; the
literal `0` when `M < 3`; otherwise `ξ · global`. -/
def TriestBase.get_estimation (s : TriestBase) : ℚ :=
  let t := s.reservoir.t
  if t ≤ s.M then (s.global_triangles : ℚ)
  else if s.M < 3 then 0
  else
    let xi : ℚ := ((t : ℚ) * ((t : ℚ) - 1) * ((t : ℚ) - 2)) /
      ((s.M : ℚ) * ((s.M : ℚ) - 1) * ((s.M : ℚ) - 2))
    xi * (s.global_triangles : ℚ)

/-- `TriestImpr.__init__` state: counters are floats in the source,
embedded exactly as rationals. -/
structure TriestImpr where
  M : ℕ
  reservoir : ReservoirSampling
  adj : Adj
  global_triangles : ℚ
  local_triangles : Vertex → ℚ

/-- `TriestImpr(M)`: no validation of `M`. -/
def TriestImpr.init (M : ℕ) : TriestImpr :=
  { M := M, reservoir := ReservoirSampling.init M, adj := Adj.empty,
    global_triangles := 0, local_triangles := fun _ => 0 }

/-- The weight computation of `TriestImpr.process_edge`:
`eta = 1.0` when `t ≤ M`, else `max(1.0, ((t-1)*(t-2)) / (M*(M-1)))`.
Python raises `ZeroDivisionError` when the integer denominator `M*(M-1)`
is zero, embedded as `none`. -/
def etaCalc (M t : ℕ) : Option ℚ :=
  if t ≤ M then some 1
  else if M * (M - 1) = 0 then none
  else some (max 1 ((((t : ℚ) - 1) * ((t : ℚ) - 2)) / ((M : ℚ) * ((M : ℚ) - 1))))

/-- `TriestImpr.process_edge(u, v)`: compute `eta` from `t = reservoir.t + 1`
(may raise, giving `none`); unconditionally add `eta` to the global counter
and locals of `u`, `v`, `c` for every common neighbor `c` in the adjacency
as it stands now; only then consult the reservoir; update the adjacency on
eviction/admission without touching any counter. -/
def TriestImpr.process_edge (s : TriestImpr) (u v : Vertex)
    (q : ℚ) (i : ℕ) : Option TriestImpr :=
  let t := s.reservoir.t + 1
  match etaCalc s.M t with
  | none => none
  | some eta =>
    let common := get_common_neighbors s.adj u v
    let res := common.foldl (counterStep eta u v)
      (s.global_triangles, s.local_triangles)
    let s1 : TriestImpr :=
      { s with global_triangles := res.1, local_triangles := res.2 }
    let ar := s1.reservoir.add_item (u, v) q i
    let s2 : TriestImpr := { s1 with reservoir := ar.1 }
    let s3 : TriestImpr :=
      match ar.2.2 with
      | some e => { s2 with adj := removeAdj s2.adj e.1 e.2 }
      | none => s2
    some (if ar.2.1 then { s3 with adj := addAdj s3.adj u v } else s3)

/-- `TriestImpr.get_estimation()`: the global counter itself. -/
def TriestImpr.get_estimation (s : TriestImpr) : ℚ :=
  s.global_triangles

/-- Run the base estimator over a stream; each stream element carries the
edge and the two random draws its `add_item` call consumes. -/
def runBase (M : ℕ) (stream : List (Edge × ℚ × ℕ)) : TriestBase :=
  stream.foldl (fun s e => s.process_edge e.1.1 e.1.2 e.2.1 e.2.2)
    (TriestBase.init M)

/-- Run the improved estimator over a stream (propagating the
division-by-zero error). -/
def runImpr (M : ℕ) (stream : List (Edge × ℚ × ℕ)) : Option TriestImpr :=
  stream.foldl (fun os e => os.bind (fun s => s.process_edge e.1.1 e.1.2 e.2.1 e.2.2))
    (some (TriestImpr.init M))

/-- Run a bare reservoir over a stream. -/
def runReservoir (M : ℕ) (stream : List (Edge × ℚ × ℕ)) : ReservoirSampling :=
  stream.foldl (fun r e => (r.add_item e.1 e.2.1 e.2.2).1)
    (ReservoirSampling.init M)

/-! ## The reference graph semantics (for the exactness claims)

These definitions give the mathematical triangle count of the graph formed
by an edge list, stated independently of the estimator code. -/

/-- `a` and `b` are joined by some stream edge, in either orientation. -/
def adjIn (E : List Edge) (a b : Vertex) : Bool :=
  E.any (fun e => (e.1 == a && e.2 == b) || (e.1 == b && e.2 == a))

/-- The vertices touched by an edge list. -/
def vertsOf (E : List Edge) : Finset Vertex :=
  E.foldr (fun e s => insert e.1 (insert e.2 s)) ∅

/-- All 3-element vertex sets that are pairwise joined: the triangles of
the graph formed by the edge list. -/
def triangles (E : List Edge) : Finset (Finset Vertex) :=
  ((vertsOf E).powersetCard 3).filter
    (fun s => ∀ a ∈ s, ∀ b ∈ s, a ≠ b → adjIn E a b = true)

/-- The exact number of triangles in the graph formed by the edge list. -/
def triangleCount (E : List Edge) : ℕ :=
  (triangles E).card

/-- Common neighbours of `u` and `v` in the graph formed by the edge list. -/
def commonNbrs (E : List Edge) (u v : Vertex) : Finset Vertex :=
  (vertsOf E).filter (fun c => adjIn E u c = true ∧ adjIn E v c = true)

/-- The two pairs denote the same undirected edge. -/
def sameEdgeB (e f : Edge) : Bool :=
  (e.1 == f.1 && e.2 == f.2) || (e.1 == f.2 && e.2 == f.1)

/-- The stream is admissible for the exactness/mirroring statements:
no self-loops and no undirected edge appears twice. -/
def edgesOk : List Edge → Bool
  | [] => true
  | e :: es => (e.1 != e.2) && es.all (fun f => !(sameEdgeB e f)) && edgesOk es

/-- The adjacency view mirrors a sample list: a neighbour entry exists
exactly when some orientation of the edge is in the sample. -/
def mirrors (adj : Adj) (sample : List Edge) : Prop :=
  ∀ a b : Vertex, b ∈ adjGet adj a ↔ ((a, b) ∈ sample ∨ (b, a) ∈ sample)

/-- No key is present with an empty neighbour set. -/
def noEmptyKeys (adj : Adj) : Prop :=
  ∀ a : Vertex, adj a ≠ some ([] : List Vertex)

/-- The reservoir's acceptance guard is exactly the true division `M / t`
of the Python source. -/
theorem add_item_guard_eq_div (M t : ℕ) :
    Rat.divInt (M : ℤ) (t : ℤ) = (M : ℚ) / (t : ℚ) := by
  rw [Rat.divInt_eq_div]
  norm_num

/-! ## Basic lemmas about the set and dictionary embeddings -/

theorem mem_setAdd {l : List Vertex} {x y : Vertex} :
    y ∈ setAdd l x ↔ y ∈ l ∨ y = x := by
  unfold setAdd
  split
  case isTrue h =>
    constructor
    · exact fun hy => Or.inl hy
    · rintro (hy | rfl)
      · exact hy
      · exact h
  case isFalse h => simp [List.mem_cons, or_comm]

theorem setAdd_ne_nil {l : List Vertex} {x : Vertex} : setAdd l x ≠ [] := by
  unfold setAdd
  split
  case isTrue h =>
    intro hl
    rw [hl] at h
    exact absurd h (List.not_mem_nil x)
  case isFalse h => simp

theorem setAdd_nodup {l : List Vertex} {x : Vertex} (h : l.Nodup) :
    (setAdd l x).Nodup := by
  unfold setAdd
  split
  case isTrue _ => exact h
  case isFalse hx => exact List.nodup_cons.2 ⟨hx, h⟩

theorem mem_setInter {l r : List Vertex} {x : Vertex} :
    x ∈ setInter l r ↔ x ∈ l ∧ x ∈ r := by
  simp [setInter]

theorem setInter_nodup {l r : List Vertex} (h : l.Nodup) :
    (setInter l r).Nodup :=
  h.filter _

theorem adjGet_adjSet_self (adj : Adj) (k : Vertex) (s : List Vertex) :
    adjGet (adjSet adj k s) k = s := by
  simp [adjGet, adjSet]

theorem adjGet_adjSet_ne (adj : Adj) (k : Vertex) (s : List Vertex)
    {x : Vertex} (h : x ≠ k) : adjGet (adjSet adj k s) x = adjGet adj x := by
  simp [adjGet, adjSet, h]

theorem adjGet_adjDelIfEmpty (adj : Adj) (k x : Vertex) :
    adjGet (adjDelIfEmpty adj k) x = adjGet adj x := by
  unfold adjDelIfEmpty
  split
  case isTrue h =>
    by_cases hx : x = k
    · subst hx
      rw [show adjGet (adjDel adj x) x = [] from by simp [adjGet, adjDel], h]
    · simp [adjGet, adjDel, hx]
  case isFalse h =>
    by_cases hx : x = k
    · subst hx
      exact adjGet_adjSet_self adj x (adjGet adj x)
    · exact adjGet_adjSet_ne adj k _ hx

theorem adjDelIfEmpty_self_ne (adj : Adj) (k : Vertex) :
    adjDelIfEmpty adj k k ≠ some [] := by
  unfold adjDelIfEmpty
  split
  case isTrue h => simp [adjDel]
  case isFalse h =>
    simp only [adjSet, if_pos rfl]
    intro hc
    exact h (by injection hc)

theorem adjDelIfEmpty_ne (adj : Adj) (k : Vertex) {x : Vertex} (h : x ≠ k) :
    adjDelIfEmpty adj k x = adj x := by
  unfold adjDelIfEmpty
  split
  · simp [adjDel, h]
  · simp [adjSet, h]

theorem adjGet_adjDiscard_self (adj : Adj) (k x : Vertex) :
    adjGet (adjDiscard adj k x) k = (adjGet adj k).erase x :=
  adjGet_adjSet_self _ _ _

theorem adjGet_adjDiscard_ne (adj : Adj) (k x : Vertex) {a : Vertex}
    (h : a ≠ k) : adjGet (adjDiscard adj k x) a = adjGet adj a :=
  adjGet_adjSet_ne _ _ _ h

/-- Pointwise view of the shared admission block `addAdj` (for `u ≠ v`). -/
theorem mem_adjGet_addAdj {adj : Adj} {u v : Vertex} (huv : u ≠ v)
    (a b : Vertex) :
    b ∈ adjGet (addAdj adj u v) a ↔
      b ∈ adjGet adj a ∨ (a = u ∧ b = v) ∨ (a = v ∧ b = u) := by
  unfold addAdj adjInsert
  by_cases hav : a = v
  · subst hav
    rw [adjGet_adjSet_self, mem_setAdd,
      adjGet_adjSet_ne _ _ _ (fun h => huv h.symm)]
    constructor
    · rintro (hb | rfl)
      · exact Or.inl hb
      · exact Or.inr (Or.inr ⟨rfl, rfl⟩)
    · rintro (hb | ⟨hau, _⟩ | ⟨_, rfl⟩)
      · exact Or.inl hb
      · exact absurd hau.symm huv
      · exact Or.inr rfl
  · rw [adjGet_adjSet_ne _ _ _ hav]
    by_cases hau : a = u
    · subst hau
      rw [adjGet_adjSet_self, mem_setAdd]
      constructor
      · rintro (hb | rfl)
        · exact Or.inl hb
        · exact Or.inr (Or.inl ⟨rfl, rfl⟩)
      · rintro (hb | ⟨_, rfl⟩ | ⟨hav', _⟩)
        · exact Or.inl hb
        · exact Or.inr rfl
        · exact absurd hav' hav
    · rw [adjGet_adjSet_ne _ _ _ hau]
      constructor
      · exact fun hb => Or.inl hb
      · rintro (hb | ⟨hau', _⟩ | ⟨hav', _⟩)
        · exact hb
        · exact absurd hau' hau
        · exact absurd hav' hav

/-- Pointwise view of the shared eviction block `removeAdj` (for `ru ≠ rv`,
with duplicate-free neighbour sets). -/
theorem mem_adjGet_removeAdj {adj : Adj} {ru rv : Vertex} (hne : ru ≠ rv)
    (hnd : ∀ a : Vertex, (adjGet adj a).Nodup) (a b : Vertex) :
    b ∈ adjGet (removeAdj adj ru rv) a ↔
      b ∈ adjGet adj a ∧ ¬(a = ru ∧ b = rv) ∧ ¬(a = rv ∧ b = ru) := by
  unfold removeAdj
  rw [adjGet_adjDelIfEmpty, adjGet_adjDelIfEmpty]
  by_cases har : a = rv
  · subst har
    rw [adjGet_adjDiscard_self, adjGet_adjDiscard_ne _ _ _ hne.symm,
      List.Nodup.mem_erase_iff (hnd a)]
    constructor
    · rintro ⟨hbru, hb⟩
      exact ⟨hb, fun h => hne h.1.symm, fun h => hbru h.2⟩
    · rintro ⟨hb, _, h2⟩
      exact ⟨fun hbru => h2 ⟨rfl, hbru⟩, hb⟩
  · rw [adjGet_adjDiscard_ne _ _ _ har]
    by_cases hau : a = ru
    · subst hau
      rw [adjGet_adjDiscard_self, List.Nodup.mem_erase_iff (hnd a)]
      constructor
      · rintro ⟨hbrv, hb⟩
        exact ⟨hb, fun h => hbrv h.2, fun h => har h.1⟩
      · rintro ⟨hb, h1, _⟩
        exact ⟨fun hbrv => h1 ⟨rfl, hbrv⟩, hb⟩
    · rw [adjGet_adjDiscard_ne _ _ _ hau]
      constructor
      · exact fun hb => ⟨hb, fun h => hau h.1, fun h => har h.1⟩
      · exact fun h => h.1

/-- `addAdj` leaves no dangling empty keys. -/
theorem noEmptyKeys_addAdj {adj : Adj} (h : noEmptyKeys adj) (u v : Vertex) :
    noEmptyKeys (addAdj adj u v) := by
  intro a
  unfold addAdj adjInsert adjSet
  by_cases hav : a = v
  · simp only [hav, if_pos rfl]
    intro hc
    exact setAdd_ne_nil (by injection hc)
  · simp only [hav, if_false]
    by_cases hau : a = u
    · simp only [hau, if_pos rfl]
      intro hc
      exact setAdd_ne_nil (by injection hc)
    · simp only [hau, if_false]
      exact h a

/-- `removeAdj` leaves no dangling empty keys (for distinct endpoints). -/
theorem noEmptyKeys_removeAdj {adj : Adj} (h : noEmptyKeys adj)
    {ru rv : Vertex} (hne : ru ≠ rv) : noEmptyKeys (removeAdj adj ru rv) := by
  intro a
  unfold removeAdj
  by_cases har : a = rv
  · subst har
    exact adjDelIfEmpty_self_ne _ a
  · rw [adjDelIfEmpty_ne _ _ har]
    by_cases hau : a = ru
    · subst hau
      exact adjDelIfEmpty_self_ne _ a
    · rw [adjDelIfEmpty_ne _ _ hau]
      rw [show adjDiscard (adjDiscard adj ru rv) rv ru a = adj a from by
        simp [adjDiscard, adjSet, har, hau]]
      exact h a

/-- `addAdj` preserves duplicate-freeness of every neighbour set. -/
theorem adjNodup_addAdj {adj : Adj} (h : ∀ a : Vertex, (adjGet adj a).Nodup)
    (u v : Vertex) : ∀ a : Vertex, (adjGet (addAdj adj u v) a).Nodup := by
  intro a
  unfold addAdj adjInsert
  by_cases hav : a = v
  · subst hav
    rw [adjGet_adjSet_self]
    exact setAdd_nodup (by
      by_cases hau : a = u
      · subst hau
        rw [adjGet_adjSet_self]
        exact setAdd_nodup (h a)
      · rw [adjGet_adjSet_ne _ _ _ hau]
        exact h a)
  · rw [adjGet_adjSet_ne _ _ _ hav]
    by_cases hau : a = u
    · subst hau
      rw [adjGet_adjSet_self]
      exact setAdd_nodup (h a)
    · rw [adjGet_adjSet_ne _ _ _ hau]
      exact h a

/-- `removeAdj` preserves duplicate-freeness of every neighbour set. -/
theorem adjNodup_removeAdj {adj : Adj} (h : ∀ a : Vertex, (adjGet adj a).Nodup)
    (ru rv : Vertex) : ∀ a : Vertex, (adjGet (removeAdj adj ru rv) a).Nodup := by
  intro a
  unfold removeAdj
  rw [adjGet_adjDelIfEmpty, adjGet_adjDelIfEmpty]
  by_cases har : a = rv
  · subst har
    rw [adjGet_adjDiscard_self]
    exact List.Nodup.erase _ (by
      by_cases hau : a = ru
      · subst hau
        rw [adjGet_adjDiscard_self]
        exact List.Nodup.erase _ (h a)
      · rw [adjGet_adjDiscard_ne _ _ _ hau]
        exact h a)
  · rw [adjGet_adjDiscard_ne _ _ _ har]
    by_cases hau : a = ru
    · subst hau
      rw [adjGet_adjDiscard_self]
      exact List.Nodup.erase _ (h a)
    · rw [adjGet_adjDiscard_ne _ _ _ hau]
      exact h a

/-! ## Effect of the counter-update loop -/

theorem counterStep_fst {A : Type} [Add A] (d : A) (u v c : Vertex)
    (st : A × (Vertex → A)) : (counterStep d u v st c).1 = st.1 + d := rfl

theorem counterStep_snd_other {A : Type} [Add A] (d : A) (u v c : Vertex)
    (st : A × (Vertex → A)) {w : Vertex} (hwu : w ≠ u) (hwv : w ≠ v)
    (hwc : w ≠ c) : (counterStep d u v st c).2 w = st.2 w := by
  simp [counterStep, Function.update, hwu, hwv, hwc]

theorem counterStep_snd_u {A : Type} [Add A] (d : A) {u v c : Vertex}
    (st : A × (Vertex → A)) (huv : u ≠ v) (huc : u ≠ c) :
    (counterStep d u v st c).2 u = st.2 u + d := by
  simp [counterStep, Function.update, huv, huc]

theorem counterStep_snd_v {A : Type} [Add A] (d : A) {u v c : Vertex}
    (st : A × (Vertex → A)) (huv : u ≠ v) (hvc : v ≠ c) :
    (counterStep d u v st c).2 v = st.2 v + d := by
  simp [counterStep, Function.update, Ne.symm huv, hvc]

theorem counterStep_snd_c {A : Type} [Add A] (d : A) {u v c : Vertex}
    (st : A × (Vertex → A)) (hcu : c ≠ u) (hcv : c ≠ v) :
    (counterStep d u v st c).2 c = st.2 c + d := by
  simp [counterStep, Function.update, hcu, hcv]

/-- The loop adds `d` to the global counter once per common neighbour,
unconditionally. -/
theorem counterFold_fst {A : Type} [AddCommMonoid A] (d : A) (u v : Vertex)
    (cs : List Vertex) (g : A) (loc : Vertex → A) :
    (cs.foldl (counterStep d u v) (g, loc)).1 = g + cs.length • d := by
  induction cs generalizing g loc with
  | nil => simp
  | cons c cs ih =>
    rw [List.foldl_cons]
    rcases hst : counterStep d u v (g, loc) c with ⟨g', loc'⟩
    have hg' : g' = g + d := by
      have := counterStep_fst d u v c (g, loc)
      rw [hst] at this
      exact this
    rw [ih g' loc', hg', List.length_cons, succ_nsmul, add_comm (cs.length • d) d,
      add_assoc]

/-- A vertex different from `u`, `v` and every common neighbour keeps its
local counter. -/
theorem counterFold_snd_other {A : Type} [AddCommMonoid A] (d : A)
    (u v : Vertex) (cs : List Vertex) (g : A) (loc : Vertex → A)
    {w : Vertex} (hwu : w ≠ u) (hwv : w ≠ v) (hw : w ∉ cs) :
    (cs.foldl (counterStep d u v) (g, loc)).2 w = loc w := by
  induction cs generalizing g loc with
  | nil => simp
  | cons c cs ih =>
    rw [List.foldl_cons]
    rcases hst : counterStep d u v (g, loc) c with ⟨g', loc'⟩
    have hl : loc' w = loc w := by
      have := counterStep_snd_other d u v c (g, loc) hwu hwv
        (fun h => hw (h ▸ List.mem_cons_self c cs))
      rw [hst] at this
      exact this
    rw [ih g' loc' (fun h => hw (List.mem_cons_of_mem c h)), hl]

/-- Endpoint `u` gains `d` once per common neighbour. -/
theorem counterFold_snd_u {A : Type} [AddCommMonoid A] (d : A)
    {u v : Vertex} (cs : List Vertex) (g : A) (loc : Vertex → A)
    (huv : u ≠ v) (hu : u ∉ cs) :
    (cs.foldl (counterStep d u v) (g, loc)).2 u = loc u + cs.length • d := by
  induction cs generalizing g loc with
  | nil => simp
  | cons c cs ih =>
    rw [List.foldl_cons]
    rcases hst : counterStep d u v (g, loc) c with ⟨g', loc'⟩
    have hl : loc' u = loc u + d := by
      have := counterStep_snd_u d (g, loc) huv
        (fun h => hu (h ▸ List.mem_cons_self c cs))
      rw [hst] at this
      exact this
    rw [ih g' loc' (fun h => hu (List.mem_cons_of_mem c h)), hl,
      List.length_cons, succ_nsmul, add_comm (cs.length • d) d, add_assoc]

/-- Endpoint `v` gains `d` once per common neighbour. -/
theorem counterFold_snd_v {A : Type} [AddCommMonoid A] (d : A)
    {u v : Vertex} (cs : List Vertex) (g : A) (loc : Vertex → A)
    (huv : u ≠ v) (hv : v ∉ cs) :
    (cs.foldl (counterStep d u v) (g, loc)).2 v = loc v + cs.length • d := by
  induction cs generalizing g loc with
  | nil => simp
  | cons c cs ih =>
    rw [List.foldl_cons]
    rcases hst : counterStep d u v (g, loc) c with ⟨g', loc'⟩
    have hl : loc' v = loc v + d := by
      have := counterStep_snd_v d (g, loc) huv
        (fun h => hv (h ▸ List.mem_cons_self c cs))
      rw [hst] at this
      exact this
    rw [ih g' loc' (fun h => hv (List.mem_cons_of_mem c h)), hl,
      List.length_cons, succ_nsmul, add_comm (cs.length • d) d, add_assoc]

/-- A common neighbour (distinct from both endpoints) gains `d` exactly
once. -/
theorem counterFold_snd_mem {A : Type} [AddCommMonoid A] (d : A)
    {u v : Vertex} (cs : List Vertex) (g : A) (loc : Vertex → A)
    (hnd : cs.Nodup) {c : Vertex} (hc : c ∈ cs) (hcu : c ≠ u) (hcv : c ≠ v) :
    (cs.foldl (counterStep d u v) (g, loc)).2 c = loc c + d := by
  induction cs generalizing g loc with
  | nil => exact absurd hc (List.not_mem_nil c)
  | cons c0 cs ih =>
    rw [List.foldl_cons]
    rcases hst : counterStep d u v (g, loc) c0 with ⟨g', loc'⟩
    rcases List.mem_cons.1 hc with rfl | hc'
    · have hl : loc' c = loc c + d := by
        have := counterStep_snd_c d (g, loc) hcu hcv
        rw [hst] at this
        exact this
      have hnotin : c ∉ cs := (List.nodup_cons.1 hnd).1
      rw [counterFold_snd_other d u v cs g' loc' hcu hcv hnotin, hl]
    · have hcc0 : c ≠ c0 := by
        intro h
        exact (List.nodup_cons.1 hnd).1 (h ▸ hc')
      have hl : loc' c = loc c := by
        have := counterStep_snd_other d u v c0 (g, loc) hcu hcv hcc0
        rw [hst] at this
        exact this
      rw [ih g' loc' (List.nodup_cons.1 hnd).2 hc', hl]

/-- With a non-negative weight, no counter ever decreases through the
loop (the improved variant's monotonicity). -/
theorem counterFold_mono (d : ℚ) (hd : 0 ≤ d) (u v : Vertex)
    (cs : List Vertex) (g : ℚ) (loc : Vertex → ℚ) :
    g ≤ (cs.foldl (counterStep d u v) (g, loc)).1 ∧
    ∀ w : Vertex, loc w ≤ (cs.foldl (counterStep d u v) (g, loc)).2 w := by
  induction cs generalizing g loc with
  | nil => exact ⟨le_refl g, fun w => le_refl (loc w)⟩
  | cons c cs ih =>
    rw [List.foldl_cons]
    rcases hst : counterStep d u v (g, loc) c with ⟨g', loc'⟩
    have hg : g ≤ g' := by
      have h1 := counterStep_fst d u v c (g, loc)
      rw [hst] at h1
      have h2 : g' = g + d := h1
      rw [h2]
      exact le_add_of_nonneg_right hd
    have hloc : ∀ w : Vertex, loc w ≤ loc' w := by
      intro w
      have hup : ∀ (f : Vertex → ℚ) (x : Vertex),
          f w ≤ Function.update f x (f x + d) w := by
        intro f x
        by_cases hwx : w = x
        · subst hwx
          rw [Function.update_same]
          exact le_add_of_nonneg_right hd
        · rw [Function.update_noteq hwx]
      have : (counterStep d u v (g, loc) c).2 w =
          (Function.update (Function.update (Function.update loc u (loc u + d)) v
            ((Function.update loc u (loc u + d)) v + d)) c
            ((Function.update (Function.update loc u (loc u + d)) v
              ((Function.update loc u (loc u + d)) v + d)) c + d)) w := rfl
      calc loc w ≤ (Function.update loc u (loc u + d)) w := hup loc u
        _ ≤ (Function.update (Function.update loc u (loc u + d)) v
              ((Function.update loc u (loc u + d)) v + d)) w := hup _ v
        _ ≤ _ := hup _ c
        _ = loc' w := by rw [← this, hst]
    rcases ih g' loc' with ⟨ih1, ih2⟩
    exact ⟨le_trans hg ih1, fun w => le_trans (hloc w) (ih2 w)⟩

/-! ## Reservoir case analysis -/

/-- Below capacity: unconditional admission by appending, nothing evicted. -/
theorem add_item_below {r : ReservoirSampling} (item : Edge) (q : ℚ) (i : ℕ)
    (h : r.sample.length < r.M) :
    r.add_item item q i =
      ({ r with sample := r.sample ++ [item], t := r.t + 1 }, true, none) := by
  unfold ReservoirSampling.add_item
  rw [if_pos h]

/-- At capacity, losing draw: nothing changes except `t`. -/
theorem add_item_reject {r : ReservoirSampling} (item : Edge) (q : ℚ) (i : ℕ)
    (h : ¬ r.sample.length < r.M)
    (hq : ¬ q < (r.M : ℚ) / ((r.t + 1 : ℕ) : ℚ)) :
    r.add_item item q i = ({ r with t := r.t + 1 }, false, none) := by
  unfold ReservoirSampling.add_item
  rw [if_neg h, if_neg]
  rw [add_item_guard_eq_div]
  exact_mod_cast hq

/-- At capacity, winning draw: the edge at the drawn index is evicted and
replaced in place. -/
theorem add_item_accept {r : ReservoirSampling} (item : Edge) (q : ℚ) (i : ℕ)
    (h : ¬ r.sample.length < r.M)
    (hq : q < (r.M : ℚ) / ((r.t + 1 : ℕ) : ℚ)) :
    r.add_item item q i =
      ({ r with sample := r.sample.set (i % r.M) item, t := r.t + 1 }, true,
        some (r.sample.getD (i % r.M) (0, 0))) := by
  unfold ReservoirSampling.add_item
  rw [if_neg h, if_pos]
  rw [add_item_guard_eq_div]
  exact_mod_cast hq

/-- Every `add_item` call advances `t` by exactly one. -/
theorem add_item_t (r : ReservoirSampling) (item : Edge) (q : ℚ) (i : ℕ) :
    (r.add_item item q i).1.t = r.t + 1 := by
  by_cases h : r.sample.length < r.M
  · rw [add_item_below item q i h]
  · by_cases hq : q < (r.M : ℚ) / ((r.t + 1 : ℕ) : ℚ)
    · rw [add_item_accept item q i h hq]
    · rw [add_item_reject item q i h hq]

/-! ## Decomposing the two `process_edge` methods -/

/-- The base estimator's reservoir evolves exactly by `add_item`. -/
theorem processBase_reservoir (s : TriestBase) (u v : Vertex) (q : ℚ) (i : ℕ) :
    (s.process_edge u v q i).reservoir = (s.reservoir.add_item (u, v) q i).1 := by
  rcases hres : s.reservoir.add_item (u, v) q i with ⟨r', added, removed⟩
  simp only [TriestBase.process_edge, hres]
  cases removed <;> cases added <;> rfl

/-- The base estimator's capacity field never changes. -/
theorem processBase_M (s : TriestBase) (u v : Vertex) (q : ℚ) (i : ℕ) :
    (s.process_edge u v q i).M = s.M := by
  rcases hres : s.reservoir.add_item (u, v) q i with ⟨r', added, removed⟩
  simp only [TriestBase.process_edge, hres]
  cases removed <;> cases added <;> rfl

/-- Base `process_edge`, fresh-admission case. -/
theorem processBase_added_none {s : TriestBase} {u v : Vertex} {q : ℚ} {i : ℕ}
    {r' : ReservoirSampling}
    (hres : s.reservoir.add_item (u, v) q i = (r', true, none)) :
    s.process_edge u v q i =
      (let s3 := TriestBase.update_counters { s with reservoir := r' } u v true
       { s3 with adj := addAdj s3.adj u v }) := by
  simp only [TriestBase.process_edge, hres]
  rw [if_pos trivial]

/-- Base `process_edge`, replacement case. -/
theorem processBase_added_some {s : TriestBase} {u v : Vertex} {q : ℚ} {i : ℕ}
    {r' : ReservoirSampling} {e : Edge}
    (hres : s.reservoir.add_item (u, v) q i = (r', true, some e)) :
    s.process_edge u v q i =
      (let s' := TriestBase.update_counters { s with reservoir := r' } e.1 e.2 false
       let s2 : TriestBase := { s' with adj := removeAdj s'.adj e.1 e.2 }
       let s3 := s2.update_counters u v true
       { s3 with adj := addAdj s3.adj u v }) := by
  simp only [TriestBase.process_edge, hres]
  rw [if_pos trivial]

/-- Base `process_edge`, rejection case. -/
theorem processBase_not_added {s : TriestBase} {u v : Vertex} {q : ℚ} {i : ℕ}
    {r' : ReservoirSampling}
    (hres : s.reservoir.add_item (u, v) q i = (r', false, none)) :
    s.process_edge u v q i = { s with reservoir := r' } := by
  simp only [TriestBase.process_edge, hres]
  rw [if_neg (by simp)]

theorem etaCalc_of_le {M t : ℕ} (h : t ≤ M) : etaCalc M t = some 1 := by
  unfold etaCalc
  rw [if_pos h]

theorem etaCalc_of_gt {M t : ℕ} (hM : 2 ≤ M) (h : M < t) :
    etaCalc M t =
      some (max 1 ((((t : ℚ) - 1) * ((t : ℚ) - 2)) / ((M : ℚ) * ((M : ℚ) - 1)))) := by
  unfold etaCalc
  rw [if_neg (not_le.2 h), if_neg]
  have h1 : 1 ≤ M - 1 := Nat.le_sub_one_of_lt hM
  have : 0 < M * (M - 1) := Nat.mul_pos (lt_of_lt_of_le (by norm_num) hM) h1
  omega

theorem etaCalc_none_of_M1 {M t : ℕ} (hM : M = 1) (h : M < t) :
    etaCalc M t = none := by
  unfold etaCalc
  subst hM
  rw [if_neg (not_le.2 h), if_pos]
  rfl

/-- With capacity at least two, the weight is always defined and at
least `1`. -/
theorem etaCalc_isSome {M t : ℕ} (hM : 2 ≤ M) :
    ∃ eta : ℚ, etaCalc M t = some eta ∧ 1 ≤ eta := by
  by_cases h : t ≤ M
  · exact ⟨1, etaCalc_of_le h, le_refl 1⟩
  · refine ⟨_, etaCalc_of_gt hM (not_le.1 h), le_max_left 1 _⟩

/-- The improved estimator's `process_edge`, fully decomposed, whenever the
weight computation does not raise. -/
theorem processImpr_spec {s : TriestImpr} (u v : Vertex) (q : ℚ) (i : ℕ)
    {eta : ℚ} (he : etaCalc s.M (s.reservoir.t + 1) = some eta) :
    s.process_edge u v q i = some
      (let cs := get_common_neighbors s.adj u v
       let res := cs.foldl (counterStep eta u v) (s.global_triangles, s.local_triangles)
       let ar := s.reservoir.add_item (u, v) q i
       let adj1 := match ar.2.2 with
         | some e => removeAdj s.adj e.1 e.2
         | none => s.adj
       { M := s.M, reservoir := ar.1,
         adj := if ar.2.1 then addAdj adj1 u v else adj1,
         global_triangles := res.1, local_triangles := res.2 }) := by
  rcases hres : s.reservoir.add_item (u, v) q i with ⟨r', added, removed⟩
  simp only [TriestImpr.process_edge, he, hres]
  cases removed <;> cases added <;> rfl

/-- The improved estimator's `process_edge` raises `ZeroDivisionError`
exactly when the weight computation does. -/
theorem processImpr_none {s : TriestImpr} (u v : Vertex) (q : ℚ) (i : ℕ)
    (he : etaCalc s.M (s.reservoir.t + 1) = none) :
    s.process_edge u v q i = none := by
  simp only [TriestImpr.process_edge, he]

/-! ## Claim C2: the base estimation formula -/

/-- C2: for the base estimator with capacity `M ≥ 3`, `get_estimation`
returns the global counter unchanged whenever `t ≤ M` (in particular `0`
on the freshly constructed estimator), and once `t > M` it returns the
global counter multiplied by `ξ = t(t-1)(t-2) / (M(M-1)(M-2))`. -/
theorem base_estimation_formula (s : TriestBase) (hM : 3 ≤ s.M) :
    (s.reservoir.t ≤ s.M → s.get_estimation = (s.global_triangles : ℚ)) ∧
    (s.M < s.reservoir.t →
      s.get_estimation =
        (s.global_triangles : ℚ) *
          (((s.reservoir.t : ℚ) * ((s.reservoir.t : ℚ) - 1) * ((s.reservoir.t : ℚ) - 2)) /
            ((s.M : ℚ) * ((s.M : ℚ) - 1) * ((s.M : ℚ) - 2)))) ∧
    (TriestBase.init s.M).get_estimation = 0 := by
  refine ⟨fun h => ?_, fun h => ?_, ?_⟩
  · unfold TriestBase.get_estimation
    rw [if_pos h]
  · unfold TriestBase.get_estimation
    rw [if_neg (not_le.2 h), if_neg (not_lt.2 hM)]
    exact mul_comm _ _
  · simp [TriestBase.get_estimation, TriestBase.init, ReservoirSampling.init]

/-- A saturated base-estimator state used to instantiate C2. -/
def c2state : TriestBase :=
  { M := 3, reservoir := { M := 3, sample := [(1,2),(2,3),(1,3)], t := 4 },
    adj := Adj.empty, global_triangles := 2, local_triangles := fun _ => 0 }

theorem base_estimation_formula_witness :
    3 ≤ c2state.M ∧
    c2state.get_estimation =
      (c2state.global_triangles : ℚ) *
        (((c2state.reservoir.t : ℚ) * ((c2state.reservoir.t : ℚ) - 1) *
            ((c2state.reservoir.t : ℚ) - 2)) /
          ((c2state.M : ℚ) * ((c2state.M : ℚ) - 1) * ((c2state.M : ℚ) - 2))) ∧
    (TriestBase.init c2state.M).get_estimation = 0 :=
  ⟨by decide, (base_estimation_formula c2state (by decide)).2.1 (by decide),
    (base_estimation_formula c2state (by decide)).2.2⟩

/-! ## Claim C5: base estimator with `M < 3` after saturation -/

/-- The run exhibiting the degenerate estimate: capacity 2, three edges. -/
def c5run : TriestBase :=
  runBase 2 [((1,2),0,0),((1,3),0,0),((2,3),0,0)]

/-- C5 counterexample: the claim says a base estimator constructed with
`M < 3` and queried after `t > M` reports an explicit "estimate
unsupported" condition rather than silently returning the numeric value
`0`.  The code has no such error channel: on this reachable state with
`M = 2 < 3` and `t = 3 > M`, `get_estimation` returns the plain number
`0`. -/
theorem base_smallM_counterexample :
    c5run.M = 2 ∧ c5run.M < c5run.reservoir.t ∧ c5run.get_estimation = 0 := by
  refine ⟨by decide, by decide, ?_⟩
  decide

/-- C5 (amended): when the base estimator has `M < 3` and `t > M`,
`get_estimation` silently returns the numeric value `0` (there is no
"unsupported" report). -/
theorem base_smallM_returns_zero (s : TriestBase) (h3 : s.M < 3)
    (ht : s.M < s.reservoir.t) : s.get_estimation = 0 := by
  unfold TriestBase.get_estimation
  rw [if_neg (not_le.2 ht), if_pos h3]

theorem base_smallM_returns_zero_witness :
    c5run.M < 3 ∧ c5run.M < c5run.reservoir.t ∧ c5run.get_estimation = 0 :=
  ⟨by decide, by decide, base_smallM_returns_zero c5run (by decide) (by decide)⟩

/-! ## Claim C1: self-loops are not rejected -/

/-- C1 counterexample: the claim says `process(u, u)` fails with an
invalid-edge error and leaves `t`, the adjacency and the counters
unchanged.  Neither estimator validates its input: on a fresh base
estimator, `process_edge 5 5` runs the normal path, advances `t` from `0`
to `1`, admits the self-loop into the sample and creates an adjacency
entry. -/
theorem selfloop_counterexample :
    ((TriestBase.init 3).process_edge 5 5 0 0).reservoir.t ≠
      (TriestBase.init 3).reservoir.t ∧
    ((TriestBase.init 3).process_edge 5 5 0 0).reservoir.sample = [(5, 5)] ∧
    adjGet ((TriestBase.init 3).process_edge 5 5 0 0).adj 5 = [5] := by
  refine ⟨by decide, by decide, by decide⟩

/-- C1 (amended): `process(u, u)` is processed like any other edge — no
error is raised and the stream counter `t` advances by one; for the
improved variant this holds whenever the (unrelated) weight computation is
defined, e.g. while `t + 1 ≤ M` or whenever `M ≥ 2`. -/
theorem selfloop_no_validation (sB : TriestBase) (sI : TriestImpr)
    (u : Vertex) (q : ℚ) (i : ℕ)
    (hI : sI.reservoir.t + 1 ≤ sI.M ∨ 2 ≤ sI.M) :
    (sB.process_edge u u q i).reservoir.t = sB.reservoir.t + 1 ∧
    ∃ s', sI.process_edge u u q i = some s' ∧
      s'.reservoir.t = sI.reservoir.t + 1 := by
  constructor
  · rw [processBase_reservoir, add_item_t]
  · have he : ∃ eta : ℚ, etaCalc sI.M (sI.reservoir.t + 1) = some eta := by
      rcases hI with h | h
      · exact ⟨1, etaCalc_of_le h⟩
      · rcases etaCalc_isSome (t := sI.reservoir.t + 1) h with ⟨eta, he, _⟩
        exact ⟨eta, he⟩
    rcases he with ⟨eta, he⟩
    refine ⟨_, processImpr_spec u u q i he, ?_⟩
    exact add_item_t _ _ _ _

theorem selfloop_no_validation_witness :
    (((TriestBase.init 3).process_edge 5 5 0 0).reservoir.t =
      (TriestBase.init 3).reservoir.t + 1) ∧
    ∃ s', (TriestImpr.init 3).process_edge 5 5 0 0 = some s' ∧
      s'.reservoir.t = (TriestImpr.init 3).reservoir.t + 1 :=
  selfloop_no_validation (TriestBase.init 3) (TriestImpr.init 3) 5 0 0
    (by decide)

/-! ## Claim C10: division by zero in the improved estimator at `M = 1` -/

/-- A valid improved-estimator state with `M = 1` after one processed
edge. -/
def imprM1state : TriestImpr :=
  { M := 1, reservoir := { M := 1, sample := [(1,2)], t := 1 },
    adj := adjSet (adjSet Adj.empty 1 [2]) 2 [1],
    global_triangles := 0, local_triangles := fun _ => 0 }

/-- C10: with capacity `M = 1` (positive, hence admissible), every
`process_edge` call after the first raises `ZeroDivisionError` while
computing `eta` — the denominator `M(M-1)` is zero once `t + 1 > M` — and
the first call itself succeeds, so the error branch is reachable. -/
theorem impr_M1_divzero (s : TriestImpr) (u v : Vertex) (q : ℚ) (i : ℕ)
    (hM : s.M = 1) (ht : 1 ≤ s.reservoir.t) :
    s.process_edge u v q i = none ∧
    (∀ (u' v' : Vertex) (q' : ℚ) (i' : ℕ),
      ∃ s1, (TriestImpr.init 1).process_edge u' v' q' i' = some s1 ∧
        s1.reservoir.t = 1) := by
  constructor
  · apply processImpr_none
    apply etaCalc_none_of_M1 hM
    omega
  · intro u' v' q' i'
    have he : etaCalc (TriestImpr.init 1).M ((TriestImpr.init 1).reservoir.t + 1) =
        some 1 := etaCalc_of_le (by decide)
    refine ⟨_, processImpr_spec u' v' q' i' he, ?_⟩
    exact add_item_t _ _ _ _

theorem impr_M1_divzero_witness :
    imprM1state.process_edge 3 4 0 0 = none ∧
    (∀ (u' v' : Vertex) (q' : ℚ) (i' : ℕ),
      ∃ s1, (TriestImpr.init 1).process_edge u' v' q' i' = some s1 ∧
        s1.reservoir.t = 1) :=
  impr_M1_divzero imprM1state 3 4 0 0 (by decide) (by decide)

/-! ## Claim C9: no validation of the capacity at construction -/

/-- C9 counterexample: the claim says constructing a reservoir or an
estimator with non-positive capacity fails immediately.  No constructor
validates: capacity `0` yields a complete, usable state. -/
theorem construction_counterexample :
    ReservoirSampling.init 0 = { M := 0, sample := [], t := 0 } ∧
    (TriestBase.init 0).M = 0 ∧ (TriestImpr.init 0).M = 0 :=
  ⟨rfl, rfl, rfl⟩

/-- C9 (amended): construction performs no validation — any capacity,
including `0`, produces the initial state with an empty sample and
`t = 0`; a capacity-`0` reservoir then never admits any edge (for valid
draws `q ≥ 0`), only counting the stream. -/
theorem construction_no_validation (M : ℕ) (r : ReservoirSampling)
    (item : Edge) (q : ℚ) (i : ℕ) (h0 : r.M = 0) (hq : 0 ≤ q) :
    ReservoirSampling.init M = { M := M, sample := [], t := 0 } ∧
    r.add_item item q i = ({ r with t := r.t + 1 }, false, none) := by
  refine ⟨rfl, ?_⟩
  apply add_item_reject
  · rw [h0]
    exact not_lt_of_le (Nat.zero_le _)
  · have hM0 : ((r.M : ℚ)) = 0 := by
      rw [h0]
      norm_num
    rw [hM0, zero_div]
    exact not_lt.2 hq

theorem construction_no_validation_witness :
    ReservoirSampling.init 0 = { M := 0, sample := [], t := 0 } ∧
    ReservoirSampling.add_item { M := 0, sample := [], t := 0 } (1, 2) 0 0 =
      ({ M := 0, sample := [], t := 1 }, false, none) :=
  construction_no_validation 0 { M := 0, sample := [], t := 0 } (1, 2) 0 0
    rfl (by norm_num)

/-! ## Claim C6: the sample-size invariant -/

/-- One `add_item` call preserves `|S| = min(t, M)` (and the capacity). -/
theorem add_item_len {r : ReservoirSampling} (item : Edge) (q : ℚ) (i : ℕ)
    (h : r.sample.length = min r.t r.M) :
    (r.add_item item q i).1.sample.length = min (r.t + 1) r.M ∧
    (r.add_item item q i).1.M = r.M := by
  by_cases hlt : r.sample.length < r.M
  · rw [add_item_below item q i hlt]
    refine ⟨?_, rfl⟩
    simp only [List.length_append, List.length_cons, List.length_nil]
    omega
  · by_cases hq : q < (r.M : ℚ) / ((r.t + 1 : ℕ) : ℚ)
    · rw [add_item_accept item q i hlt hq]
      refine ⟨?_, rfl⟩
      simp only [List.length_set]
      omega
    · rw [add_item_reject item q i hlt hq]
      refine ⟨?_, rfl⟩
      simp only []
      omega

/-- The invariant holds along any run, from any state satisfying it. -/
theorem foldl_add_item_inv (stream : List (Edge × ℚ × ℕ))
    (r : ReservoirSampling) (h : r.sample.length = min r.t r.M) :
    (stream.foldl (fun r e => (r.add_item e.1 e.2.1 e.2.2).1) r).t =
      r.t + stream.length ∧
    (stream.foldl (fun r e => (r.add_item e.1 e.2.1 e.2.2).1) r).sample.length =
      min (r.t + stream.length) r.M ∧
    (stream.foldl (fun r e => (r.add_item e.1 e.2.1 e.2.2).1) r).M = r.M := by
  induction stream generalizing r with
  | nil => exact ⟨rfl, h, rfl⟩
  | cons e es ih =>
    rw [List.foldl_cons]
    rcases add_item_len e.1 e.2.1 e.2.2 h with ⟨hlen, hM⟩
    have ht := add_item_t r e.1 e.2.1 e.2.2
    have h' : (r.add_item e.1 e.2.1 e.2.2).1.sample.length =
        min (r.add_item e.1 e.2.1 e.2.2).1.t (r.add_item e.1 e.2.1 e.2.2).1.M := by
      rw [hlen, ht, hM]
    rcases ih (r.add_item e.1 e.2.1 e.2.2).1 h' with ⟨i1, i2, i3⟩
    refine ⟨?_, ?_, ?_⟩
    · rw [i1, ht, List.length_cons]
      omega
    · rw [i2, ht, hM, List.length_cons]
      have : r.t + 1 + es.length = r.t + (es.length + 1) := by omega
      rw [this]
    · rw [i3, hM]

/-- C6: for a reservoir of positive capacity `M`, every `add_item` call
increments `t` by exactly one (admitted or not), and after any run the
sample size is `min(t, M)`. -/
theorem reservoir_size_invariant (M : ℕ) (hM : 1 ≤ M)
    (stream : List (Edge × ℚ × ℕ)) :
    (∀ (r : ReservoirSampling) (item : Edge) (q : ℚ) (i : ℕ),
      (r.add_item item q i).1.t = r.t + 1) ∧
    (runReservoir M stream).t = stream.length ∧
    (runReservoir M stream).sample.length = min stream.length M := by
  have h := foldl_add_item_inv stream (ReservoirSampling.init M)
    (by simp [ReservoirSampling.init])
  rcases h with ⟨h1, h2, h3⟩
  refine ⟨fun r item q i => add_item_t r item q i, ?_, ?_⟩
  · rw [show runReservoir M stream =
      stream.foldl (fun r e => (r.add_item e.1 e.2.1 e.2.2).1)
        (ReservoirSampling.init M) from rfl, h1]
    simp [ReservoirSampling.init]
  · rw [show runReservoir M stream =
      stream.foldl (fun r e => (r.add_item e.1 e.2.1 e.2.2).1)
        (ReservoirSampling.init M) from rfl, h2]
    simp [ReservoirSampling.init]

theorem reservoir_size_invariant_witness :
    (∀ (r : ReservoirSampling) (item : Edge) (q : ℚ) (i : ℕ),
      (r.add_item item q i).1.t = r.t + 1) ∧
    (runReservoir 2 [((1,2),0,0),((1,3),0,0),((2,3),0,0)]).t = 3 ∧
    (runReservoir 2 [((1,2),0,0),((1,3),0,0),((2,3),0,0)]).sample.length =
      min 3 2 :=
  reservoir_size_invariant 2 (by decide) [((1,2),0,0),((1,3),0,0),((2,3),0,0)]

/-! ## Claim C8: the reservoir admission contract -/

/-- C8: for every call (with a valid draw `q ≥ 0`): below capacity the
edge is admitted unconditionally with no eviction; at capacity with a
losing draw the call returns `(false, none)` and only `t` changes; at
capacity with a winning draw (`q < M/t`) exactly one currently sampled
edge — the one at the drawn index — is removed, the new edge takes its
place, and the removed edge is returned as evicted. -/
theorem reservoir_admit_contract (r : ReservoirSampling) (item : Edge)
    (q : ℚ) (i : ℕ) (hq0 : 0 ≤ q) :
    (r.sample.length < r.M →
      r.add_item item q i =
        ({ r with sample := r.sample ++ [item], t := r.t + 1 }, true, none)) ∧
    (¬ r.sample.length < r.M → ¬ q < (r.M : ℚ) / ((r.t + 1 : ℕ) : ℚ) →
      r.add_item item q i = ({ r with t := r.t + 1 }, false, none)) ∧
    (¬ r.sample.length < r.M → q < (r.M : ℚ) / ((r.t + 1 : ℕ) : ℚ) →
      ∃ idx : ℕ, ∃ hidx : idx < r.sample.length,
        r.add_item item q i =
          ({ r with sample := r.sample.set idx item, t := r.t + 1 }, true,
            some (r.sample.get ⟨idx, hidx⟩))) := by
  refine ⟨fun h => add_item_below item q i h,
    fun h hq => add_item_reject item q i h hq, fun h hq => ?_⟩
  have hMpos : 0 < r.M := by
    by_contra h0
    have hM0 : ((r.M : ℚ)) = 0 := by
      have : r.M = 0 := by omega
      rw [this]
      norm_num
    rw [hM0, zero_div] at hq
    exact absurd hq (not_lt.2 hq0)
  have hidx : i % r.M < r.sample.length :=
    lt_of_lt_of_le (Nat.mod_lt i hMpos) (not_lt.1 h)
  refine ⟨i % r.M, hidx, ?_⟩
  rw [add_item_accept item q i h hq]
  rw [show r.sample.getD (i % r.M) (0, 0) = r.sample.get ⟨i % r.M, hidx⟩ from by
    rw [List.getD_eq_getElem _ _ hidx, List.get_eq_getElem]]

theorem reservoir_admit_contract_witness :
    ∃ idx : ℕ,
      ∃ hidx : idx < ({ M := 2, sample := [(1,2),(3,4)], t := 2 } :
        ReservoirSampling).sample.length,
      ReservoirSampling.add_item { M := 2, sample := [(1,2),(3,4)], t := 2 }
          (5, 6) 0 1 =
        ({ M := 2, sample := [(1,2),(3,4)].set idx (5, 6), t := 2 + 1 }, true,
          some (([(1,2),(3,4)] : List Edge).get ⟨idx, hidx⟩)) :=
  (reservoir_admit_contract { M := 2, sample := [(1,2),(3,4)], t := 2 }
    (5, 6) 0 1 (by norm_num)).2.2 (by decide) (by norm_num)

/-! ## Claim C4: the improved estimator's unconditional weighted update -/

/-- C4: every improved-variant `process_edge` call at time `t+1` computes
`eta` (`1` while `t+1 ≤ M`, else `max(1, t(t-1)... )` per the source
formula) and adds it, for each shared neighbour `c` taken from the
adjacency as it stood before any admission or eviction, to the global
counter and the local counters of `u`, `v` and `c`; this happens whatever
the random draws decide, no counter ever decreases, and the estimate is
the bare global counter.  (`M ≥ 2` keeps the weight's denominator nonzero;
the endpoint/duplicate-freeness hypotheses express that the adjacency
sets are genuine Python sets over a self-loop-free graph.) -/
theorem impr_weighted_update (s : TriestImpr) (u v : Vertex) (q : ℚ) (i : ℕ)
    (hM : 2 ≤ s.M) (huv : u ≠ v)
    (hu : u ∉ get_common_neighbors s.adj u v)
    (hv : v ∉ get_common_neighbors s.adj u v)
    (hnd : (get_common_neighbors s.adj u v).Nodup) :
    ∃ (eta : ℚ) (s' : TriestImpr),
      etaCalc s.M (s.reservoir.t + 1) = some eta ∧
      (s.reservoir.t + 1 ≤ s.M → eta = 1) ∧
      (s.M < s.reservoir.t + 1 →
        eta = max 1 (((((s.reservoir.t + 1 : ℕ) : ℚ)) - 1) *
          ((((s.reservoir.t + 1 : ℕ) : ℚ)) - 2) /
          ((s.M : ℚ) * ((s.M : ℚ) - 1)))) ∧
      s.process_edge u v q i = some s' ∧
      s'.global_triangles = s.global_triangles +
        ((get_common_neighbors s.adj u v).length : ℚ) * eta ∧
      s'.local_triangles u = s.local_triangles u +
        ((get_common_neighbors s.adj u v).length : ℚ) * eta ∧
      s'.local_triangles v = s.local_triangles v +
        ((get_common_neighbors s.adj u v).length : ℚ) * eta ∧
      (∀ c ∈ get_common_neighbors s.adj u v,
        s'.local_triangles c = s.local_triangles c + eta) ∧
      s.global_triangles ≤ s'.global_triangles ∧
      (∀ w : Vertex, s.local_triangles w ≤ s'.local_triangles w) ∧
      s'.get_estimation = s'.global_triangles := by
  rcases etaCalc_isSome (t := s.reservoir.t + 1) hM with ⟨eta, he, h1e⟩
  have heta0 : 0 ≤ eta := le_trans zero_le_one h1e
  have hmono := counterFold_mono eta heta0 u v (get_common_neighbors s.adj u v)
    s.global_triangles s.local_triangles
  refine ⟨eta, _, he, ?_, ?_, processImpr_spec u v q i he, ?_, ?_, ?_, ?_,
    hmono.1, hmono.2, rfl⟩
  · intro h
    have h2 := etaCalc_of_le (M := s.M) h
    rw [h2] at he
    exact (Option.some_inj.1 he).symm
  · intro h
    have h2 := etaCalc_of_gt hM h
    rw [h2] at he
    exact (Option.some_inj.1 he).symm
  · exact (counterFold_fst eta u v (get_common_neighbors s.adj u v)
      s.global_triangles s.local_triangles).trans (by rw [nsmul_eq_mul])
  · exact (counterFold_snd_u eta (get_common_neighbors s.adj u v)
      s.global_triangles s.local_triangles huv hu).trans (by rw [nsmul_eq_mul])
  · exact (counterFold_snd_v eta (get_common_neighbors s.adj u v)
      s.global_triangles s.local_triangles huv hv).trans (by rw [nsmul_eq_mul])
  · intro c hc
    exact counterFold_snd_mem eta _ _ _ hnd hc
      (fun h => hu (h ▸ hc)) (fun h => hv (h ▸ hc))

/-- An improved-estimator state whose adjacency holds the path
`1 - 3 - 2`, so that processing `(1, 2)` closes a triangle. -/
def c4state : TriestImpr :=
  { M := 2, reservoir := { M := 2, sample := [(1,3),(2,3)], t := 2 },
    adj := adjSet (adjSet (adjSet Adj.empty 1 [3]) 2 [3]) 3 [1, 2],
    global_triangles := 0, local_triangles := fun _ => 0 }

theorem impr_weighted_update_witness :
    ∃ (eta : ℚ) (s' : TriestImpr),
      etaCalc c4state.M (c4state.reservoir.t + 1) = some eta ∧
      (c4state.reservoir.t + 1 ≤ c4state.M → eta = 1) ∧
      (c4state.M < c4state.reservoir.t + 1 →
        eta = max 1 (((((c4state.reservoir.t + 1 : ℕ) : ℚ)) - 1) *
          ((((c4state.reservoir.t + 1 : ℕ) : ℚ)) - 2) /
          ((c4state.M : ℚ) * ((c4state.M : ℚ) - 1)))) ∧
      c4state.process_edge 1 2 0 0 = some s' ∧
      s'.global_triangles = c4state.global_triangles +
        ((get_common_neighbors c4state.adj 1 2).length : ℚ) * eta ∧
      s'.local_triangles 1 = c4state.local_triangles 1 +
        ((get_common_neighbors c4state.adj 1 2).length : ℚ) * eta ∧
      s'.local_triangles 2 = c4state.local_triangles 2 +
        ((get_common_neighbors c4state.adj 1 2).length : ℚ) * eta ∧
      (∀ c ∈ get_common_neighbors c4state.adj 1 2,
        s'.local_triangles c = c4state.local_triangles c + eta) ∧
      c4state.global_triangles ≤ s'.global_triangles ∧
      (∀ w : Vertex, c4state.local_triangles w ≤ s'.local_triangles w) ∧
      s'.get_estimation = s'.global_triangles :=
  impr_weighted_update c4state 1 2 0 0 (by decide) (by decide) (by decide)
    (by decide) (by decide)

/-! ## Undirected-edge bookkeeping on lists -/

theorem sameEdgeB_iff {e f : Edge} :
    sameEdgeB e f = true ↔ e = f ∨ (e.1 = f.2 ∧ e.2 = f.1) := by
  rcases e with ⟨a, b⟩
  rcases f with ⟨c, d⟩
  simp [sameEdgeB, Prod.ext_iff]

theorem sameEdgeB_refl (e : Edge) : sameEdgeB e e = true :=
  sameEdgeB_iff.2 (Or.inl rfl)

theorem sameEdgeB_symm (e f : Edge) : sameEdgeB e f = sameEdgeB f e := by
  rcases e with ⟨a, b⟩
  rcases f with ⟨c, d⟩
  by_cases h : sameEdgeB (a, b) (c, d) = true
  · rw [h]
    rcases sameEdgeB_iff.1 h with h1 | ⟨h1, h2⟩
    · rw [(sameEdgeB_iff.2 (Or.inl h1.symm) : sameEdgeB (c, d) (a, b) = true)]
    · rw [(sameEdgeB_iff.2 (Or.inr ⟨h2.symm, h1.symm⟩) :
        sameEdgeB (c, d) (a, b) = true)]
  · rw [Bool.not_eq_true] at h
    rw [h]
    rw [show sameEdgeB (c, d) (a, b) = false from by
      rw [← Bool.not_eq_true]
      intro hcd
      rw [show sameEdgeB (a, b) (c, d) = true from by
        rcases sameEdgeB_iff.1 hcd with h1 | ⟨h1, h2⟩
        · exact sameEdgeB_iff.2 (Or.inl h1.symm)
        · exact sameEdgeB_iff.2 (Or.inr ⟨h2.symm, h1.symm⟩)] at h
      cases h]

theorem ne_of_sameEdgeB_false {e f : Edge} (h : sameEdgeB e f = false) :
    e ≠ f := by
  intro hef
  rw [hef, sameEdgeB_refl] at h
  cases h

theorem not_swap_of_sameEdgeB_false {e : Edge} {u v : Vertex}
    (h : sameEdgeB e (u, v) = false) : e ≠ (v, u) := by
  intro hef
  rw [hef] at h
  rw [show sameEdgeB (v, u) (u, v) = true from
    sameEdgeB_iff.2 (Or.inr ⟨rfl, rfl⟩)] at h
  cases h

theorem edgesOk_cons {x : Edge} {xs : List Edge} :
    edgesOk (x :: xs) = true ↔
      x.1 ≠ x.2 ∧ (∀ f ∈ xs, sameEdgeB x f = false) ∧ edgesOk xs = true := by
  simp only [edgesOk, Bool.and_eq_true, List.all_eq_true, Bool.not_eq_true',
    bne_iff_ne, ne_eq]
  exact and_assoc

/-- In a list whose entries are pairwise logically distinct undirected
edges, both orientations of an edge can only occur for a self-loop. -/
theorem not_both_orientations {l : List Edge}
    (hpw : l.Pairwise (fun e f => sameEdgeB e f = false)) {x y : Vertex}
    (h1 : (x, y) ∈ l) (h2 : (y, x) ∈ l) : x = y := by
  induction l with
  | nil => exact absurd h1 (List.not_mem_nil _)
  | cons e es ih =>
    rcases List.pairwise_cons.1 hpw with ⟨he, hes⟩
    rcases List.mem_cons.1 h1 with h1e | h1es
    · rcases List.mem_cons.1 h2 with h2e | h2es
      · have : (x, y) = (y, x) := h1e.trans h2e.symm
        exact (Prod.ext_iff.1 this).1
      · have hfalse := he (y, x) h2es
        rw [← h1e] at hfalse
        rw [show sameEdgeB (x, y) (y, x) = true from
          sameEdgeB_iff.2 (Or.inr ⟨rfl, rfl⟩)] at hfalse
        cases hfalse
    · rcases List.mem_cons.1 h2 with h2e | h2es
      · have hfalse := he (x, y) h1es
        rw [← h2e] at hfalse
        rw [show sameEdgeB (y, x) (x, y) = true from
          sameEdgeB_iff.2 (Or.inr ⟨rfl, rfl⟩)] at hfalse
        cases hfalse
      · exact ih hes h1es h2es

/-- Membership in `l.set n b` for duplicate-free `l`. -/
theorem mem_set_iff_of_nodup {l : List Edge} (hnd : l.Nodup) {n : ℕ}
    (hn : n < l.length) (b x : Edge) :
    x ∈ l.set n b ↔ x = b ∨ (x ∈ l ∧ x ≠ l.get ⟨n, hn⟩) := by
  constructor
  · intro hx
    rcases List.mem_iff_get.1 hx with ⟨⟨m, hm⟩, hget⟩
    by_cases hmn : m = n
    · subst hmn
      left
      rw [← hget, List.get_eq_getElem, List.getElem_set_self]
    · right
      have hm' : m < l.length := by
        rw [List.length_set] at hm
        exact hm
      have hx' : x = l.get ⟨m, hm'⟩ := by
        rw [← hget, List.get_eq_getElem, List.get_eq_getElem,
          List.getElem_set_ne (fun h => hmn h.symm)]
      constructor
      · rw [hx']
        exact List.get_mem l m hm'
      · rw [hx']
        intro hcontra
        have h2 := (List.Nodup.get_inj_iff hnd).1 hcontra
        exact hmn (congrArg Fin.val h2)
  · rintro (rfl | ⟨hx, hne⟩)
    · have hlen : n < (l.set n x).length := by
        rw [List.length_set]
        exact hn
      have hget : (l.set n x).get ⟨n, hlen⟩ = x := by
        rw [List.get_eq_getElem, List.getElem_set_self]
      have hmem := List.get_mem (l.set n x) n hlen
      rw [hget] at hmem
      exact hmem
    · rcases List.mem_iff_get.1 hx with ⟨⟨m, hm⟩, hget⟩
      have hmn : m ≠ n := by
        intro h
        subst h
        exact hne hget.symm
      have hlen : m < (l.set n b).length := by
        rw [List.length_set]
        exact hm
      have hgb : (l.set n b).get ⟨m, hlen⟩ = x := by
        rw [List.get_eq_getElem, List.getElem_set_ne (fun h => hmn h.symm)]
        rw [List.get_eq_getElem] at hget
        exact hget
      exact hgb ▸ List.get_mem _ m hlen

/-- Replacing an entry by an edge fresh for the whole list preserves
pairwise logical distinctness. -/
theorem pairwise_set_of_fresh {l : List Edge}
    (h : l.Pairwise (fun e f => sameEdgeB e f = false)) (n : ℕ) {b : Edge}
    (hb : ∀ e ∈ l, sameEdgeB e b = false) :
    (l.set n b).Pairwise (fun e f => sameEdgeB e f = false) := by
  induction l generalizing n with
  | nil => simp
  | cons e es ih =>
    rcases List.pairwise_cons.1 h with ⟨he, hes⟩
    cases n with
    | zero =>
      rw [List.set_cons_zero]
      refine List.pairwise_cons.2 ⟨?_, hes⟩
      intro f hf
      rw [sameEdgeB_symm]
      exact hb f (List.mem_cons_of_mem e hf)
    | succ n =>
      rw [List.set_cons_succ]
      refine List.pairwise_cons.2 ⟨?_, ih hes n (fun f hf =>
        hb f (List.mem_cons_of_mem e hf))⟩
      intro f hf
      rcases List.mem_or_eq_of_mem_set hf with hf' | rfl
      · exact he f hf'
      · exact hb e (List.mem_cons_self e es)

/-! ## The sample/adjacency coherence invariant -/

/-- Everything the estimators maintain about the pair (sample, adjacency)
along an admissible stream: the adjacency mirrors the sample, has no
dangling empty keys and duplicate-free neighbour sets, and the sample
holds pairwise logically-distinct non-loop edges. -/
structure AdjInv (sample : List Edge) (adj : Adj) : Prop where
  mirror : mirrors adj sample
  noEmpty : noEmptyKeys adj
  nodupSets : ∀ a : Vertex, (adjGet adj a).Nodup
  noLoops : ∀ e ∈ sample, e.1 ≠ e.2
  pairwiseDistinct : sample.Pairwise (fun e f => sameEdgeB e f = false)

theorem AdjInv.sample_nodup {sample : List Edge} {adj : Adj}
    (h : AdjInv sample adj) : sample.Nodup :=
  List.Pairwise.imp (fun hf => ne_of_sameEdgeB_false hf) h.pairwiseDistinct

theorem AdjInv.empty : AdjInv [] Adj.empty := by
  refine ⟨?_, ?_, ?_, ?_, ?_⟩
  · intro a b
    simp [adjGet, Adj.empty]
  · intro a
    simp [Adj.empty]
  · intro a
    simp [adjGet, Adj.empty]
  · intro e he
    exact absurd he (List.not_mem_nil e)
  · exact List.Pairwise.nil

/-- Admitting a fresh non-loop edge below capacity preserves the
invariant. -/
theorem AdjInv.append {sample : List Edge} {adj : Adj}
    (hinv : AdjInv sample adj) {u v : Vertex} (huv : u ≠ v)
    (hfresh : ∀ e ∈ sample, sameEdgeB e (u, v) = false) :
    AdjInv (sample ++ [(u, v)]) (addAdj adj u v) := by
  refine ⟨?_, noEmptyKeys_addAdj hinv.noEmpty u v, adjNodup_addAdj hinv.nodupSets u v,
    ?_, ?_⟩
  · intro a b
    rw [mem_adjGet_addAdj huv, hinv.mirror a b]
    simp only [List.mem_append, List.mem_singleton, Prod.mk.injEq]
    tauto
  · intro e he
    rcases List.mem_append.1 he with h | h
    · exact hinv.noLoops e h
    · rw [List.mem_singleton.1 h]
      exact huv
  · rw [List.pairwise_append]
    refine ⟨hinv.pairwiseDistinct, List.pairwise_singleton _ _, ?_⟩
    intro e he f hf
    rw [List.mem_singleton.1 hf]
    exact hfresh e he

/-- Replacing the sampled edge at an index by a fresh non-loop edge (the
eviction-plus-admission path) preserves the invariant. -/
theorem AdjInv.replace {sample : List Edge} {adj : Adj}
    (hinv : AdjInv sample adj) {u v : Vertex} (huv : u ≠ v)
    (hfresh : ∀ e ∈ sample, sameEdgeB e (u, v) = false)
    {idx : ℕ} (hidx : idx < sample.length) :
    AdjInv (sample.set idx (u, v))
      (addAdj (removeAdj adj (sample.get ⟨idx, hidx⟩).1
        (sample.get ⟨idx, hidx⟩).2) u v) := by
  have hmem : sample.get ⟨idx, hidx⟩ ∈ sample := List.get_mem sample idx hidx
  have hrne : (sample.get ⟨idx, hidx⟩).1 ≠ (sample.get ⟨idx, hidx⟩).2 :=
    hinv.noLoops _ hmem
  have hnd := hinv.sample_nodup
  refine ⟨?_, noEmptyKeys_addAdj (noEmptyKeys_removeAdj hinv.noEmpty hrne) u v,
    adjNodup_addAdj (adjNodup_removeAdj hinv.nodupSets _ _) u v, ?_, ?_⟩
  · intro a b
    rw [mem_adjGet_addAdj huv, mem_adjGet_removeAdj hrne hinv.nodupSets,
      hinv.mirror a b,
      mem_set_iff_of_nodup hnd hidx (u, v) (a, b),
      mem_set_iff_of_nodup hnd hidx (u, v) (b, a)]
    rcases he0 : sample.get ⟨idx, hidx⟩ with ⟨r1, r2⟩
    have hmem' : (r1, r2) ∈ sample := he0 ▸ hmem
    have hrne' : r1 ≠ r2 := by
      rw [he0] at hrne
      exact hrne
    have hswap_not : (r2, r1) ∉ sample := fun hsw =>
      hrne' (not_both_orientations hinv.pairwiseDistinct hmem' hsw)
    simp only [Prod.mk.injEq, ne_eq]
    constructor
    · rintro (⟨(hab | hba), h1, h2⟩ | ⟨ha, hb⟩ | ⟨ha, hb⟩)
      · exact Or.inl (Or.inr ⟨hab, h1⟩)
      · refine Or.inr (Or.inr ⟨hba, ?_⟩)
        rintro ⟨hb, ha⟩
        exact h2 ⟨ha, hb⟩
      · exact Or.inl (Or.inl ⟨ha, hb⟩)
      · exact Or.inr (Or.inl ⟨hb, ha⟩)
    · rintro ((⟨ha, hb⟩ | ⟨hab, h1⟩) | (⟨hb, ha⟩ | ⟨hba, h1⟩))
      · exact Or.inr (Or.inl ⟨ha, hb⟩)
      · refine Or.inl ⟨Or.inl hab, h1, ?_⟩
        rintro ⟨ha, hb⟩
        rw [ha, hb] at hab
        exact hswap_not hab
      · exact Or.inr (Or.inr ⟨ha, hb⟩)
      · refine Or.inl ⟨Or.inr hba, ?_, ?_⟩
        · rintro ⟨ha, hb⟩
          rw [ha, hb] at hba
          exact hswap_not hba
        · rintro ⟨ha, hb⟩
          exact h1 ⟨hb, ha⟩
  · intro e he
    rcases List.mem_or_eq_of_mem_set he with h | rfl
    · exact hinv.noLoops e h
    · exact huv
  · exact pairwise_set_of_fresh hinv.pairwiseDistinct idx hfresh

/-! ## Per-call and per-run preservation of the invariant -/

/-- Exhaustive case analysis of `add_item` for valid draws. -/
theorem add_item_cases (r : ReservoirSampling) (item : Edge) (q : ℚ) (i : ℕ)
    (hq0 : 0 ≤ q) :
    r.add_item item q i =
      ({ r with sample := r.sample ++ [item], t := r.t + 1 }, true, none) ∨
    r.add_item item q i = ({ r with t := r.t + 1 }, false, none) ∨
    (∃ idx : ℕ, ∃ hidx : idx < r.sample.length,
      r.add_item item q i =
        ({ r with sample := r.sample.set idx item, t := r.t + 1 }, true,
          some (r.sample.get ⟨idx, hidx⟩))) := by
  by_cases h : r.sample.length < r.M
  · exact Or.inl (add_item_below item q i h)
  · by_cases hq : q < (r.M : ℚ) / ((r.t + 1 : ℕ) : ℚ)
    · right
      right
      have hMpos : 0 < r.M := by
        by_contra h0
        have hM0 : ((r.M : ℚ)) = 0 := by
          have : r.M = 0 := by omega
          rw [this]
          norm_num
        rw [hM0, zero_div] at hq
        exact absurd hq (not_lt.2 hq0)
      have hidx : i % r.M < r.sample.length :=
        lt_of_lt_of_le (Nat.mod_lt i hMpos) (not_lt.1 h)
      refine ⟨i % r.M, hidx, ?_⟩
      rw [add_item_accept item q i h hq]
      rw [show r.sample.getD (i % r.M) (0, 0) = r.sample.get ⟨i % r.M, hidx⟩
        from by rw [List.getD_eq_getElem _ _ hidx, List.get_eq_getElem]]
    · exact Or.inr (Or.inl (add_item_reject item q i h hq))

/-- Any edge in the post-call sample was in the sample before or is the
edge just processed (base variant). -/
theorem processBase_sample_sub (s : TriestBase) (u v : Vertex) (q : ℚ)
    (i : ℕ) (hq0 : 0 ≤ q) :
    ∀ e ∈ (s.process_edge u v q i).reservoir.sample,
      e ∈ s.reservoir.sample ∨ e = (u, v) := by
  intro e hee
  have hsam : (s.process_edge u v q i).reservoir.sample =
      (s.reservoir.add_item (u, v) q i).1.sample := by
    rw [processBase_reservoir]
  rw [hsam] at hee
  rcases add_item_cases s.reservoir (u, v) q i hq0 with
    hres | hres | ⟨idx, hidx, hres⟩ <;> rw [hres] at hee
  · rcases List.mem_append.1 hee with h | h
    · exact Or.inl h
    · exact Or.inr (List.mem_singleton.1 h)
  · exact Or.inl hee
  · rcases List.mem_or_eq_of_mem_set hee with h | h
    · exact Or.inl h
    · exact Or.inr h

/-- One base `process_edge` call preserves the coherence invariant. -/
theorem processBase_inv (s : TriestBase) (u v : Vertex) (q : ℚ) (i : ℕ)
    (hq0 : 0 ≤ q) (huv : u ≠ v)
    (hfresh : ∀ e ∈ s.reservoir.sample, sameEdgeB e (u, v) = false)
    (hinv : AdjInv s.reservoir.sample s.adj) :
    AdjInv (s.process_edge u v q i).reservoir.sample
      (s.process_edge u v q i).adj := by
  rcases add_item_cases s.reservoir (u, v) q i hq0 with
    hres | hres | ⟨idx, hidx, hres⟩
  · rw [processBase_added_none hres]
    exact hinv.append huv hfresh
  · rw [processBase_not_added hres]
    exact hinv
  · rw [processBase_added_some hres]
    exact hinv.replace huv hfresh hidx

/-- One improved `process_edge` call succeeds (for `M ≥ 2`) and preserves
the coherence invariant. -/
theorem processImpr_inv (s : TriestImpr) (u v : Vertex) (q : ℚ) (i : ℕ)
    (hq0 : 0 ≤ q) (huv : u ≠ v) (hM2 : 2 ≤ s.M)
    (hfresh : ∀ e ∈ s.reservoir.sample, sameEdgeB e (u, v) = false)
    (hinv : AdjInv s.reservoir.sample s.adj) :
    ∃ s', s.process_edge u v q i = some s' ∧
      AdjInv s'.reservoir.sample s'.adj ∧ s'.M = s.M := by
  rcases etaCalc_isSome (t := s.reservoir.t + 1) hM2 with ⟨eta, he, _⟩
  refine ⟨_, processImpr_spec u v q i he, ?_, rfl⟩
  rcases add_item_cases s.reservoir (u, v) q i hq0 with
    hres | hres | ⟨idx, hidx, hres⟩ <;> simp only [hres]
  · exact hinv.append huv hfresh
  · exact hinv
  · exact hinv.replace huv hfresh hidx

/-- Any edge in the post-call sample was in the sample before or is the
edge just processed (improved variant). -/
theorem processImpr_sample_sub {s : TriestImpr} {u v : Vertex} {q : ℚ}
    {i : ℕ} {s' : TriestImpr} (hq0 : 0 ≤ q) (hM2 : 2 ≤ s.M)
    (h : s.process_edge u v q i = some s') :
    ∀ e ∈ s'.reservoir.sample, e ∈ s.reservoir.sample ∨ e = (u, v) := by
  rcases etaCalc_isSome (t := s.reservoir.t + 1) hM2 with ⟨eta, he, _⟩
  have hspec := processImpr_spec u v q i he (s := s)
  rw [h] at hspec
  have hs' := Option.some_inj.1 hspec
  intro e hee
  rw [hs'] at hee
  have hsam : ∀ ee : Edge, ee ∈ (s.reservoir.add_item (u, v) q i).1.sample →
      ee ∈ s.reservoir.sample ∨ ee = (u, v) := by
    intro ee heee
    rcases add_item_cases s.reservoir (u, v) q i hq0 with
      hres | hres | ⟨idx, hidx, hres⟩ <;> rw [hres] at heee
    · rcases List.mem_append.1 heee with h2 | h2
      · exact Or.inl h2
      · exact Or.inr (List.mem_singleton.1 h2)
    · exact Or.inl heee
    · rcases List.mem_or_eq_of_mem_set heee with h2 | h2
      · exact Or.inl h2
      · exact Or.inr h2
  exact hsam e hee

/-- The invariant holds after folding any admissible stream through the
base estimator. -/
theorem foldl_processBase_inv (stream : List (Edge × ℚ × ℕ))
    (s : TriestBase)
    (hok : edgesOk (stream.map (fun x => x.1)) = true)
    (hq : ∀ x ∈ stream, 0 ≤ x.2.1)
    (hfresh : ∀ e ∈ s.reservoir.sample, ∀ f ∈ stream.map (fun x => x.1),
      sameEdgeB e f = false)
    (hinv : AdjInv s.reservoir.sample s.adj) :
    AdjInv
      ((stream.foldl (fun s e => s.process_edge e.1.1 e.1.2 e.2.1 e.2.2) s)).reservoir.sample
      ((stream.foldl (fun s e => s.process_edge e.1.1 e.1.2 e.2.1 e.2.2) s)).adj := by
  induction stream generalizing s with
  | nil => exact hinv
  | cons x xs ih =>
    rw [List.foldl_cons]
    rw [List.map_cons] at hok
    rcases edgesOk_cons.1 hok with ⟨hx12, hxall, hok'⟩
    have hq0 : 0 ≤ x.2.1 := hq x (List.mem_cons_self x xs)
    have hfx : ∀ e ∈ s.reservoir.sample, sameEdgeB e (x.1.1, x.1.2) = false :=
      fun e he => hfresh e he x.1 (List.mem_cons_self _ _)
    apply ih
    · exact hok'
    · intro y hy
      exact hq y (List.mem_cons_of_mem x hy)
    · intro e he f hf
      rcases processBase_sample_sub s x.1.1 x.1.2 x.2.1 x.2.2 hq0 e he with
        h | rfl
      · exact hfresh e h f (List.mem_cons_of_mem x.1 hf)
      · exact hxall f hf
    · exact processBase_inv s x.1.1 x.1.2 x.2.1 x.2.2 hq0 hx12 hfx hinv

/-- The invariant holds after folding any admissible stream through the
improved estimator, which moreover never fails for `M ≥ 2`. -/
theorem foldl_processImpr_inv (stream : List (Edge × ℚ × ℕ))
    (s : TriestImpr) (hM2 : 2 ≤ s.M)
    (hok : edgesOk (stream.map (fun x => x.1)) = true)
    (hq : ∀ x ∈ stream, 0 ≤ x.2.1)
    (hfresh : ∀ e ∈ s.reservoir.sample, ∀ f ∈ stream.map (fun x => x.1),
      sameEdgeB e f = false)
    (hinv : AdjInv s.reservoir.sample s.adj) :
    ∃ s', stream.foldl
        (fun os e => os.bind (fun s => s.process_edge e.1.1 e.1.2 e.2.1 e.2.2))
        (some s) = some s' ∧
      AdjInv s'.reservoir.sample s'.adj := by
  induction stream generalizing s with
  | nil => exact ⟨s, rfl, hinv⟩
  | cons x xs ih =>
    rw [List.foldl_cons]
    rw [List.map_cons] at hok
    rcases edgesOk_cons.1 hok with ⟨hx12, hxall, hok'⟩
    have hq0 : 0 ≤ x.2.1 := hq x (List.mem_cons_self x xs)
    have hfx : ∀ e ∈ s.reservoir.sample, sameEdgeB e (x.1.1, x.1.2) = false :=
      fun e he => hfresh e he x.1 (List.mem_cons_self _ _)
    rcases processImpr_inv s x.1.1 x.1.2 x.2.1 x.2.2 hq0 hx12 hM2 hfx hinv with
      ⟨s1, heq, hinv1, hM1⟩
    rw [show (some s).bind
        (fun s => TriestImpr.process_edge s x.1.1 x.1.2 x.2.1 x.2.2) =
        s.process_edge x.1.1 x.1.2 x.2.1 x.2.2 from rfl, heq]
    apply ih s1 (hM1 ▸ hM2) hok'
    · intro y hy
      exact hq y (List.mem_cons_of_mem x hy)
    · intro e he f hf
      rcases processImpr_sample_sub hq0 hM2 heq e he with h | rfl
      · exact hfresh e h f (List.mem_cons_of_mem x.1 hf)
      · exact hxall f hf
    · exact hinv1

/-! ## Claim C7: the adjacency view mirrors the sample -/

/-- The run exhibiting the broken mirror: the duplicated edge `(1,2)` is
evicted once, which removes its adjacency entries although a second copy
is still in the sample. -/
def c7run : TriestBase :=
  runBase 2 [((1,2),0,0),((1,2),0,0),((3,4),0,0)]

/-- C7 counterexample: the claim quantifies over every sequence of
`process` calls, and the spec admits streams that repeat an edge.  On
this stream the final sample still holds `(1,2)` but the adjacency of
vertex `1` is empty, so the adjacency does not mirror `S`. -/
theorem adjacency_mirror_counterexample :
    (1, 2) ∈ c7run.reservoir.sample ∧ ¬ 2 ∈ adjGet c7run.adj 1 := by
  refine ⟨by decide, by decide⟩

/-- C7 (amended): for streams of distinct non-loop edges (and valid random
draws), the adjacency view of either variant exactly mirrors the
reservoir sample — both directions of every sampled edge are present, no
other entries exist, and no key holds an empty neighbour set.  (The
improved variant is run with `M ≥ 2` so that its weight computation cannot
raise; the base variant needs no capacity bound.) -/
theorem adjacency_mirrors_sample (M : ℕ) (stream : List (Edge × ℚ × ℕ))
    (hok : edgesOk (stream.map (fun x => x.1)) = true)
    (hq : ∀ x ∈ stream, 0 ≤ x.2.1) (hM2 : 2 ≤ M) :
    (mirrors (runBase M stream).adj (runBase M stream).reservoir.sample ∧
      noEmptyKeys (runBase M stream).adj) ∧
    (∃ sI, runImpr M stream = some sI ∧
      mirrors sI.adj sI.reservoir.sample ∧ noEmptyKeys sI.adj) := by
  constructor
  · have h := foldl_processBase_inv stream (TriestBase.init M) hok hq
      (fun e he => absurd he (List.not_mem_nil e)) AdjInv.empty
    exact ⟨h.mirror, h.noEmpty⟩
  · rcases foldl_processImpr_inv stream (TriestImpr.init M) hM2 hok hq
      (fun e he => absurd he (List.not_mem_nil e)) AdjInv.empty with
      ⟨sI, heq, hinv⟩
    exact ⟨sI, heq, hinv.mirror, hinv.noEmpty⟩

theorem adjacency_mirrors_sample_witness :
    (mirrors (runBase 2 [((1,2),0,0),((1,3),0,0),((2,3),0,0)]).adj
        (runBase 2 [((1,2),0,0),((1,3),0,0),((2,3),0,0)]).reservoir.sample ∧
      noEmptyKeys (runBase 2 [((1,2),0,0),((1,3),0,0),((2,3),0,0)]).adj) ∧
    (∃ sI, runImpr 2 [((1,2),0,0),((1,3),0,0),((2,3),0,0)] = some sI ∧
      mirrors sI.adj sI.reservoir.sample ∧ noEmptyKeys sI.adj) :=
  adjacency_mirrors_sample 2 [((1,2),0,0),((1,3),0,0),((2,3),0,0)]
    (by decide) (by decide) (by decide)

/-! ## Facts about the reference graph semantics -/

theorem adjIn_iff {E : List Edge} {a b : Vertex} :
    adjIn E a b = true ↔ (a, b) ∈ E ∨ (b, a) ∈ E := by
  simp only [adjIn, List.any_eq_true, Bool.or_eq_true, Bool.and_eq_true,
    beq_iff_eq]
  constructor
  · rintro ⟨e, he, ⟨h1, h2⟩ | ⟨h1, h2⟩⟩
    · left
      rw [show (a, b) = e from by rw [← h1, ← h2]]
      exact he
    · right
      rw [show (b, a) = e from by rw [← h1, ← h2]]
      exact he
  · rintro (h | h)
    · exact ⟨(a, b), h, Or.inl ⟨rfl, rfl⟩⟩
    · exact ⟨(b, a), h, Or.inr ⟨rfl, rfl⟩⟩

theorem adjIn_symm (E : List Edge) (a b : Vertex) :
    adjIn E a b = adjIn E b a := by
  by_cases h : adjIn E a b = true
  · rw [h, eq_comm, adjIn_iff]
    exact (adjIn_iff.1 h).symm
  · rw [Bool.not_eq_true] at h
    rw [h, eq_comm, Bool.eq_false_iff]
    intro h2
    rw [Bool.eq_false_iff] at h
    exact h (adjIn_iff.2 (adjIn_iff.1 h2).symm)

theorem mem_vertsOf_iff {E : List Edge} {x : Vertex} :
    x ∈ vertsOf E ↔ ∃ e ∈ E, x = e.1 ∨ x = e.2 := by
  induction E with
  | nil => simp [vertsOf]
  | cons e es ih =>
    rw [show vertsOf (e :: es) = insert e.1 (insert e.2 (vertsOf es)) from rfl]
    simp only [Finset.mem_insert, List.mem_cons, ih]
    constructor
    · rintro (rfl | rfl | ⟨f, hf, hx⟩)
      · exact ⟨e, Or.inl rfl, Or.inl rfl⟩
      · exact ⟨e, Or.inl rfl, Or.inr rfl⟩
      · exact ⟨f, Or.inr hf, hx⟩
    · rintro ⟨f, rfl | hf, hx⟩
      · rcases hx with rfl | rfl
        · exact Or.inl rfl
        · exact Or.inr (Or.inl rfl)
      · exact Or.inr (Or.inr ⟨f, hf, hx⟩)

theorem adjIn_mem_verts {E : List Edge} {a b : Vertex}
    (h : adjIn E a b = true) : a ∈ vertsOf E ∧ b ∈ vertsOf E := by
  rcases adjIn_iff.1 h with h | h
  · exact ⟨mem_vertsOf_iff.2 ⟨(a, b), h, Or.inl rfl⟩,
      mem_vertsOf_iff.2 ⟨(a, b), h, Or.inr rfl⟩⟩
  · exact ⟨mem_vertsOf_iff.2 ⟨(b, a), h, Or.inr rfl⟩,
      mem_vertsOf_iff.2 ⟨(b, a), h, Or.inl rfl⟩⟩

theorem adjIn_self_false {E : List Edge} (hnl : ∀ e ∈ E, e.1 ≠ e.2)
    (a : Vertex) : adjIn E a a = false := by
  rw [Bool.eq_false_iff]
  intro h
  rcases adjIn_iff.1 h with h2 | h2 <;> exact hnl (a, a) h2 rfl

theorem mem_verts_append_single {E : List Edge} {u v x : Vertex}
    (h : x ∈ vertsOf E) : x ∈ vertsOf (E ++ [(u, v)]) := by
  rcases mem_vertsOf_iff.1 h with ⟨e, he, hx⟩
  exact mem_vertsOf_iff.2 ⟨e, List.mem_append_left _ he, hx⟩

theorem adjIn_append_single {E : List Edge} {u v a b : Vertex} :
    adjIn (E ++ [(u, v)]) a b = true ↔
      adjIn E a b = true ∨ (a = u ∧ b = v) ∨ (a = v ∧ b = u) := by
  rw [adjIn_iff, adjIn_iff]
  simp only [List.mem_append, List.mem_singleton, Prod.mk.injEq]
  tauto

theorem mem_triangles_iff {E : List Edge} {s : Finset Vertex} :
    s ∈ triangles E ↔ s ⊆ vertsOf E ∧ s.card = 3 ∧
      ∀ a ∈ s, ∀ b ∈ s, a ≠ b → adjIn E a b = true := by
  rw [triangles, Finset.mem_filter, Finset.mem_powersetCard, and_assoc]

theorem mem_commonNbrs_iff {E : List Edge} {u v c : Vertex} :
    c ∈ commonNbrs E u v ↔ adjIn E u c = true ∧ adjIn E v c = true := by
  rw [commonNbrs, Finset.mem_filter]
  constructor
  · exact fun h => h.2
  · intro h
    exact ⟨(adjIn_mem_verts h.1).2, h⟩

/-- Appending a fresh non-loop edge `(u, v)` to a self-loop-free graph
creates exactly the triangles `{u, v, c}` for the common neighbours `c`
of `u` and `v`. -/
theorem triangles_append (E : List Edge) (u v : Vertex) (huv : u ≠ v)
    (hnl : ∀ e ∈ E, e.1 ≠ e.2) (hnew : adjIn E u v = false) :
    triangles (E ++ [(u, v)]) =
      triangles E ∪ (commonNbrs E u v).image (fun c => {u, v, c}) := by
  ext s
  rw [Finset.mem_union, Finset.mem_image]
  constructor
  · intro hs
    rcases mem_triangles_iff.1 hs with ⟨hsub, hcard, hadj⟩
    by_cases hall : ∀ a ∈ s, ∀ b ∈ s, a ≠ b → adjIn E a b = true
    · left
      refine mem_triangles_iff.2 ⟨?_, hcard, hall⟩
      intro a ha
      rcases Finset.exists_ne_of_one_lt_card (by rw [hcard]; norm_num) a with
        ⟨b, hb, hba⟩
      exact (adjIn_mem_verts (hall a ha b hb (Ne.symm hba))).1
    · right
      push_neg at hall
      rcases hall with ⟨a, ha, b, hb, hab, hnadj⟩
      have hEadj : adjIn (E ++ [(u, v)]) a b = true := hadj a ha b hb hab
      have huvins : u ∈ s ∧ v ∈ s := by
        rcases adjIn_append_single.1 hEadj with h | ⟨rfl, rfl⟩ | ⟨rfl, rfl⟩
        · exact absurd h hnadj
        · exact ⟨ha, hb⟩
        · exact ⟨hb, ha⟩
      rcases huvins with ⟨hu, hv⟩
      have hv' : v ∈ s.erase u := Finset.mem_erase.2 ⟨Ne.symm huv, hv⟩
      have hvcard : (s.erase u).card = 2 := by
        rw [Finset.card_erase_of_mem hu, hcard]
      have hccard : ((s.erase u).erase v).card = 1 := by
        rw [Finset.card_erase_of_mem hv', hvcard]
      rcases Finset.card_eq_one.1 hccard with ⟨c, hc⟩
      have hcin : c ∈ (s.erase u).erase v := by
        rw [hc]
        exact Finset.mem_singleton_self c
      have hcv : c ≠ v := (Finset.mem_erase.1 hcin).1
      have hcu : c ≠ u := (Finset.mem_erase.1 (Finset.mem_of_mem_erase hcin)).1
      have hcs : c ∈ s := Finset.mem_of_mem_erase (Finset.mem_of_mem_erase hcin)
      have hs_eq : s = {u, v, c} := by
        rw [show ({u, v, c} : Finset Vertex) =
          insert u (insert v {c}) from rfl, ← hc, Finset.insert_erase hv',
          Finset.insert_erase hu]
      have h1 : adjIn E u c = true := by
        have h1' : adjIn (E ++ [(u, v)]) u c = true :=
          hadj u hu c hcs (Ne.symm hcu)
        rcases adjIn_append_single.1 h1' with h | ⟨_, hcv'⟩ | ⟨huv', _⟩
        · exact h
        · exact absurd hcv' hcv
        · exact absurd huv' huv
      have h2 : adjIn E v c = true := by
        have h2' : adjIn (E ++ [(u, v)]) v c = true :=
          hadj v hv c hcs (Ne.symm hcv)
        rcases adjIn_append_single.1 h2' with h | ⟨hvu', _⟩ | ⟨_, hcu'⟩
        · exact h
        · exact absurd hvu'.symm huv
        · exact absurd hcu' hcu
      exact ⟨c, mem_commonNbrs_iff.2 ⟨h1, h2⟩, hs_eq.symm⟩
  · rintro (hs | ⟨c, hc, rfl⟩)
    · rcases mem_triangles_iff.1 hs with ⟨hsub, hcard, hadj⟩
      refine mem_triangles_iff.2 ⟨?_, hcard, ?_⟩
      · exact fun a ha => mem_verts_append_single (hsub ha)
      · intro a ha b hb hab
        exact adjIn_append_single.2 (Or.inl (hadj a ha b hb hab))
    · rcases mem_commonNbrs_iff.1 hc with ⟨hcu', hcv'⟩
      have hcu : c ≠ u := by
        intro h
        rw [h, adjIn_self_false hnl] at hcu'
        cases hcu'
      have hcv : c ≠ v := by
        intro h
        rw [h, adjIn_self_false hnl] at hcv'
        cases hcv'
      have huc2 : adjIn (E ++ [(u, v)]) u c = true :=
        adjIn_append_single.2 (Or.inl hcu')
      have hvc2 : adjIn (E ++ [(u, v)]) v c = true :=
        adjIn_append_single.2 (Or.inl hcv')
      have hcu2 : adjIn (E ++ [(u, v)]) c u = true := by
        rw [adjIn_symm]
        exact huc2
      have hcv2 : adjIn (E ++ [(u, v)]) c v = true := by
        rw [adjIn_symm]
        exact hvc2
      have huv2 : adjIn (E ++ [(u, v)]) u v = true :=
        adjIn_append_single.2 (Or.inr (Or.inl ⟨rfl, rfl⟩))
      have hvu2 : adjIn (E ++ [(u, v)]) v u = true := by
        rw [adjIn_symm]
        exact huv2
      refine mem_triangles_iff.2 ⟨?_, ?_, ?_⟩
      · intro a ha
        rcases Finset.mem_insert.1 ha with ha1 | ha2
        · rw [ha1]
          exact mem_vertsOf_iff.2 ⟨(u, v),
            List.mem_append_right _ (List.mem_singleton_self _), Or.inl rfl⟩
        rcases Finset.mem_insert.1 ha2 with ha1 | ha3
        · rw [ha1]
          exact mem_vertsOf_iff.2 ⟨(u, v),
            List.mem_append_right _ (List.mem_singleton_self _), Or.inr rfl⟩
        · rw [Finset.mem_singleton] at ha3
          rw [ha3]
          exact mem_verts_append_single (adjIn_mem_verts hcu').2
      · rw [Finset.card_eq_three]
        exact ⟨u, v, c, huv, Ne.symm hcu, Ne.symm hcv, rfl⟩
      · intro a ha b hb hab
        have hb3 : b = u ∨ b = v ∨ b = c := by
          rcases Finset.mem_insert.1 hb with h | h2
          · exact Or.inl h
          rcases Finset.mem_insert.1 h2 with h | h3
          · exact Or.inr (Or.inl h)
          · exact Or.inr (Or.inr (Finset.mem_singleton.1 h3))
        have ha3 : a = u ∨ a = v ∨ a = c := by
          rcases Finset.mem_insert.1 ha with h | h2
          · exact Or.inl h
          rcases Finset.mem_insert.1 h2 with h | h3
          · exact Or.inr (Or.inl h)
          · exact Or.inr (Or.inr (Finset.mem_singleton.1 h3))
        rcases ha3 with ha4 | ha4 | ha4 <;> rcases hb3 with hb4 | hb4 | hb4 <;>
          rw [ha4, hb4] <;> rw [ha4, hb4] at hab
        · exact absurd rfl hab
        · exact huv2
        · exact huc2
        · exact hvu2
        · exact absurd rfl hab
        · exact hvc2
        · exact hcu2
        · exact hcv2
        · exact absurd rfl hab

/-- The count form of `triangles_append`. -/
theorem triangleCount_append (E : List Edge) (u v : Vertex) (huv : u ≠ v)
    (hnl : ∀ e ∈ E, e.1 ≠ e.2) (hnew : adjIn E u v = false) :
    triangleCount (E ++ [(u, v)]) =
      triangleCount E + (commonNbrs E u v).card := by
  have hcu_all : ∀ c ∈ commonNbrs E u v, c ≠ u ∧ c ≠ v := by
    intro c hc
    rcases mem_commonNbrs_iff.1 hc with ⟨h1, h2⟩
    constructor
    · intro h
      rw [h, adjIn_self_false hnl] at h1
      cases h1
    · intro h
      rw [h, adjIn_self_false hnl] at h2
      cases h2
  have hdisj : Disjoint (triangles E)
      ((commonNbrs E u v).image (fun c => {u, v, c})) := by
    rw [Finset.disjoint_left]
    intro s hs hs2
    rcases Finset.mem_image.1 hs2 with ⟨c, hc, rfl⟩
    rcases mem_triangles_iff.1 hs with ⟨_, _, hadj⟩
    have hu : u ∈ ({u, v, c} : Finset Vertex) := Finset.mem_insert_self u _
    have hv : v ∈ ({u, v, c} : Finset Vertex) :=
      Finset.mem_insert_of_mem (Finset.mem_insert_self v _)
    have := hadj u hu v hv huv
    rw [hnew] at this
    cases this
  have hinj : Set.InjOn (fun c => ({u, v, c} : Finset Vertex))
      (commonNbrs E u v) := by
    intro c hc c' hc' heq
    rcases hcu_all c (by exact_mod_cast hc) with ⟨hcu, hcv⟩
    have heq' : ({u, v, c} : Finset Vertex) = {u, v, c'} := heq
    have hcin : c ∈ ({u, v, c'} : Finset Vertex) := by
      rw [← heq']
      exact Finset.mem_insert_of_mem (Finset.mem_insert_of_mem
        (Finset.mem_singleton_self c))
    rcases Finset.mem_insert.1 hcin with h | h2
    · exact absurd h hcu
    rcases Finset.mem_insert.1 h2 with h | h3
    · exact absurd h hcv
    · exact Finset.mem_singleton.1 h3
  rw [triangleCount, triangleCount,
    triangles_append E u v huv hnl hnew,
    Finset.card_union_of_disjoint hdisj, Finset.card_image_of_injOn hinj]

/-! ## Relating `get_common_neighbors` to the graph semantics -/

theorem gcn_mem_iff (adj : Adj) (u v c : Vertex) :
    c ∈ get_common_neighbors adj u v ↔
      c ∈ adjGet adj u ∧ c ∈ adjGet adj v := by
  unfold get_common_neighbors
  cases hu : adj u <;> cases hv : adj v <;>
    simp [adjGet, hu, hv, mem_setInter]

theorem gcn_nodup {adj : Adj} (hnd : ∀ a : Vertex, (adjGet adj a).Nodup)
    (u v : Vertex) : (get_common_neighbors adj u v).Nodup := by
  unfold get_common_neighbors
  cases hu : adj u <;> cases hv : adj v
  · exact List.nodup_nil
  · exact List.nodup_nil
  · exact List.nodup_nil
  · apply setInter_nodup
    have h := hnd u
    rw [adjGet, hu] at h
    exact h

/-- Under the coherence invariant, the code's common-neighbour list has
exactly as many entries as the graph-theoretic common neighbourhood of
the sampled graph. -/
theorem gcn_length {sample : List Edge} {adj : Adj}
    (hinv : AdjInv sample adj) (u v : Vertex) :
    (get_common_neighbors adj u v).length = (commonNbrs sample u v).card := by
  have hnd := gcn_nodup hinv.nodupSets u v
  rw [← List.toFinset_card_of_nodup hnd]
  congr 1
  ext c
  rw [List.mem_toFinset, gcn_mem_iff, hinv.mirror u c, hinv.mirror v c,
    mem_commonNbrs_iff, adjIn_iff, adjIn_iff]

/-! ## Claim C3: exactness of the base estimator while unsaturated -/

/-- While every edge still fits in the reservoir, the base estimator
retains the whole stream and its global counter equals the exact triangle
count of the graph seen so far. -/
theorem foldl_base_exact (stream : List (Edge × ℚ × ℕ)) (s : TriestBase)
    (hok : edgesOk (stream.map (fun x => x.1)) = true)
    (hfresh : ∀ e ∈ s.reservoir.sample, ∀ f ∈ stream.map (fun x => x.1),
      sameEdgeB e f = false)
    (hinv : AdjInv s.reservoir.sample s.adj)
    (hlen : s.reservoir.sample.length + stream.length ≤ s.reservoir.M)
    (ht : s.reservoir.t = s.reservoir.sample.length)
    (hg : s.global_triangles = (triangleCount s.reservoir.sample : ℤ)) :
    (stream.foldl (fun s e => s.process_edge e.1.1 e.1.2 e.2.1 e.2.2)
        s).reservoir.sample =
      s.reservoir.sample ++ stream.map (fun x => x.1) ∧
    (stream.foldl (fun s e => s.process_edge e.1.1 e.1.2 e.2.1 e.2.2)
        s).reservoir.t = s.reservoir.t + stream.length ∧
    (stream.foldl (fun s e => s.process_edge e.1.1 e.1.2 e.2.1 e.2.2)
        s).M = s.M ∧
    (stream.foldl (fun s e => s.process_edge e.1.1 e.1.2 e.2.1 e.2.2)
        s).global_triangles =
      (triangleCount ((stream.foldl
        (fun s e => s.process_edge e.1.1 e.1.2 e.2.1 e.2.2)
          s).reservoir.sample) : ℤ) := by
  induction stream generalizing s with
  | nil =>
    refine ⟨by simp, by simp, rfl, ?_⟩
    exact hg
  | cons x xs ih =>
    rw [List.foldl_cons]
    rw [List.map_cons] at hok
    rcases edgesOk_cons.1 hok with ⟨hx12, hxall, hok'⟩
    have hbelow : s.reservoir.sample.length < s.reservoir.M := by
      rw [List.length_cons] at hlen
      omega
    obtain ⟨r', hr, hrs, hrt, hrM⟩ :
        ∃ r', s.reservoir.add_item (x.1.1, x.1.2) x.2.1 x.2.2 =
            (r', true, none) ∧
          r'.sample = s.reservoir.sample ++ [(x.1.1, x.1.2)] ∧
          r'.t = s.reservoir.t + 1 ∧ r'.M = s.reservoir.M :=
      ⟨_, add_item_below (x.1.1, x.1.2) x.2.1 x.2.2 hbelow, rfl, rfl, rfl⟩
    have hproc := processBase_added_none (s := s) hr
    have hsam1 : (s.process_edge x.1.1 x.1.2 x.2.1 x.2.2).reservoir.sample =
        s.reservoir.sample ++ [(x.1.1, x.1.2)] := by
      rw [hproc]
      exact hrs
    have ht1 : (s.process_edge x.1.1 x.1.2 x.2.1 x.2.2).reservoir.t =
        s.reservoir.t + 1 := by
      rw [hproc]
      exact hrt
    have hM1 : (s.process_edge x.1.1 x.1.2 x.2.1 x.2.2).reservoir.M =
        s.reservoir.M := by
      rw [hproc]
      exact hrM
    have hMM1 : (s.process_edge x.1.1 x.1.2 x.2.1 x.2.2).M = s.M := by
      rw [hproc]
      rfl
    have hadj1 : (s.process_edge x.1.1 x.1.2 x.2.1 x.2.2).adj =
        addAdj s.adj x.1.1 x.1.2 := by
      rw [hproc]
      rfl
    have hnotin1 : (x.1.1, x.1.2) ∉ s.reservoir.sample := by
      intro h
      have h2 := hfresh _ h x.1 (List.mem_cons_self _ _)
      rw [show ((x.1.1, x.1.2) : Edge) = x.1 from rfl, sameEdgeB_refl] at h2
      cases h2
    have hnotin2 : (x.1.2, x.1.1) ∉ s.reservoir.sample := by
      intro h
      have h2 := hfresh _ h x.1 (List.mem_cons_self _ _)
      exact not_swap_of_sameEdgeB_false h2 rfl
    have hnew : adjIn s.reservoir.sample x.1.1 x.1.2 = false := by
      rw [Bool.eq_false_iff]
      intro h
      rcases adjIn_iff.1 h with h2 | h2
      · exact hnotin1 h2
      · exact hnotin2 h2
    have hfx : ∀ e ∈ s.reservoir.sample, sameEdgeB e (x.1.1, x.1.2) = false :=
      fun e he => hfresh e he x.1 (List.mem_cons_self _ _)
    have hg1 : (s.process_edge x.1.1 x.1.2 x.2.1 x.2.2).global_triangles =
        (triangleCount (s.reservoir.sample ++ [(x.1.1, x.1.2)]) : ℤ) := by
      rw [hproc]
      have hfst := counterFold_fst (1 : ℤ) x.1.1 x.1.2
        (get_common_neighbors s.adj x.1.1 x.1.2)
        s.global_triangles s.local_triangles
      have hlen2 := gcn_length hinv x.1.1 x.1.2
      have hcast : s.global_triangles +
          (get_common_neighbors s.adj x.1.1 x.1.2).length • (1 : ℤ) =
          (triangleCount (s.reservoir.sample ++ [(x.1.1, x.1.2)]) : ℤ) := by
        rw [hg, hlen2, nsmul_eq_mul, mul_one,
          triangleCount_append s.reservoir.sample x.1.1 x.1.2 hx12
            hinv.noLoops hnew]
        push_cast
        ring
      exact hfst.trans hcast
    have hinv1 : AdjInv (s.process_edge x.1.1 x.1.2 x.2.1 x.2.2).reservoir.sample
        (s.process_edge x.1.1 x.1.2 x.2.1 x.2.2).adj := by
      rw [hsam1, hadj1]
      exact hinv.append hx12 hfx
    have hstep := ih (s.process_edge x.1.1 x.1.2 x.2.1 x.2.2) hok'
      (by
        intro e he f hf
        rw [hsam1] at he
        rcases List.mem_append.1 he with h | h
        · exact hfresh e h f (List.mem_cons_of_mem x.1 hf)
        · rw [List.mem_singleton.1 h]
          exact hxall f hf)
      hinv1
      (by
        rw [hsam1, hM1, List.length_append, List.length_singleton]
        rw [List.length_cons] at hlen
        omega)
      (by
        rw [ht1, hsam1, ht, List.length_append, List.length_singleton])
      (by
        rw [hg1, hsam1])
    rcases hstep with ⟨h1, h2, h3, h4⟩
    refine ⟨?_, ?_, ?_, h4⟩
    · rw [h1, hsam1, List.map_cons, List.append_assoc]
      rfl
    · rw [h2, ht1, List.length_cons]
      omega
    · rw [h3, hMM1]

/-- The run exhibiting the duplicate-edge overcount: four edges arrive
with `t = 4 ≤ M = 4`, the last repeating `(1,2)`. -/
def c3run : TriestBase :=
  runBase 4 [((1,2),0,0),((2,3),0,0),((1,3),0,0),((1,2),0,0)]

/-- C3 counterexample: the claim asserts exactness for every stream the
spec admits, including repeated edges.  On this stream (all retained,
`t = 4 ≤ M = 4`) the duplicate `(1,2)` re-counts the already-present
triangle through the common neighbour `3`: the estimate is `2` while the
graph formed by the edges seen so far has exactly `1` triangle. -/
theorem base_duplicate_counterexample :
    c3run.reservoir.t = 4 ∧ c3run.M = 4 ∧
    c3run.get_estimation = 2 ∧
    triangleCount [(1,2),(2,3),(1,3),(1,2)] = 1 ∧
    c3run.get_estimation ≠ (triangleCount [(1,2),(2,3),(1,3),(1,2)] : ℚ) := by
  refine ⟨by decide, by decide, by decide, by decide, by decide⟩

/-- C3 (amended): for every stream of pairwise logically-distinct,
non-loop edges whose length is at most `M`, the base estimator's
`get_estimation` equals the exact triangle count of the graph formed by
all edges seen so far.  (With a repeated edge the counter adds the
shared-neighbour count again and overcounts, see the counterexample.) -/
theorem base_exact_when_unsaturated (M : ℕ) (stream : List (Edge × ℚ × ℕ))
    (hok : edgesOk (stream.map (fun x => x.1)) = true)
    (hlen : stream.length ≤ M) :
    (runBase M stream).get_estimation =
      (triangleCount (stream.map (fun x => x.1)) : ℚ) := by
  have h := foldl_base_exact stream (TriestBase.init M) hok
    (fun e he => absurd he (List.not_mem_nil e)) AdjInv.empty
    (by
      rw [show (TriestBase.init M).reservoir.sample = [] from rfl,
        show (TriestBase.init M).reservoir.M = M from rfl]
      simpa using hlen)
    rfl rfl
  rcases h with ⟨h1, h2, h3, h4⟩
  have hsam : (runBase M stream).reservoir.sample =
      stream.map (fun x => x.1) := by
    rw [show runBase M stream = stream.foldl
      (fun s e => s.process_edge e.1.1 e.1.2 e.2.1 e.2.2)
      (TriestBase.init M) from rfl, h1]
    rfl
  have ht : (runBase M stream).reservoir.t = stream.length := by
    rw [show runBase M stream = stream.foldl
      (fun s e => s.process_edge e.1.1 e.1.2 e.2.1 e.2.2)
      (TriestBase.init M) from rfl, h2]
    rw [show (TriestBase.init M).reservoir.t = 0 from rfl, Nat.zero_add]
  have hM : (runBase M stream).M = M := by
    rw [show runBase M stream = stream.foldl
      (fun s e => s.process_edge e.1.1 e.1.2 e.2.1 e.2.2)
      (TriestBase.init M) from rfl, h3]
    rfl
  have hg : (runBase M stream).global_triangles =
      (triangleCount (stream.map (fun x => x.1)) : ℤ) := by
    rw [show runBase M stream = stream.foldl
      (fun s e => s.process_edge e.1.1 e.1.2 e.2.1 e.2.2)
      (TriestBase.init M) from rfl, h4, h1]
    rfl
  unfold TriestBase.get_estimation
  rw [if_pos (by rw [ht, hM]; exact hlen), hg]
  push_cast
  ring

theorem base_exact_when_unsaturated_witness :
    (runBase 3 [((1,2),0,0),((2,3),0,0),((1,3),0,0)]).get_estimation =
      (triangleCount [(1,2),(2,3),(1,3)] : ℚ) :=
  base_exact_when_unsaturated 3 [((1,2),0,0),((2,3),0,0),((1,3),0,0)]
    (by decide) (by decide)

example : triangleCount [(1,2),(2,3),(1,3)] = 1 := by decide
example : triangleCount [(1,2),(2,3),(1,3),(1,2)] = 1 := by decide
example : (runBase 4 [((1,2),0,0),((2,3),0,0),((1,3),0,0),((1,2),0,0)]).global_triangles = 2 := by decide
example : (runBase 4 [((1,2),0,0),((2,3),0,0),((1,3),0,0)]).get_estimation = 1 := by decide
example : (runBase 2 [((1,2),0,0),((1,2),0,0),((3,4),0,0)]).reservoir.sample = [(3,4),(1,2)] := by decide
example : adjGet (runBase 2 [((1,2),0,0),((1,2),0,0),((3,4),0,0)]).adj 1 = [] := by decide
example : runImpr 1 [((1,2),0,0),((3,4),0,0)] = none := rfl
